import Mathlib

/-!
Verification of the durable sequential workflow engine (EventHorizon).

This file gives a shallow embedding of the engine core found in
src/core/engine.ts (state machine, atomic claim, crash recovery, wait
scheduling) together with the step-document creation code in
src/server.ts, and proves properties of the embedded operations.

Modelling conventions:
- MongoDB documents become Lean structures; the store is a list of step
  documents.  Mongo object ids become natural numbers whose order is the
  insertion order (Mongo ObjectIds are monotone), and are unique, which
  appears as a Nodup hypothesis where needed.
- JavaScript Date values become `Option Int` (milliseconds since epoch);
  `none` is an Invalid Date (a NaN time value).  Comparisons against an
  Invalid Date are false, as in JavaScript.
- The engine executes one step at a time, but a single `executeStep`
  call spans real time: its awaited saves, lookups and handler work
  separate the clock reads.  The call therefore carries two instants,
  the wait-branch `Date.now()` read (`tSched`) and the unblock-block
  `new Date()` reads (`tUnblock`), with the COMPLETED write landing at
  some instant between the two; theorems quantify over that completion
  instant where it matters.
- Fallible engine code (the wait branch, whose save of an Invalid Date
  fails the Mongoose date cast) returns `Except`; the catch block of
  executeStep handles the error.
- Step handlers are external collaborators; their outcome (an output plus
  context patch, or an error) is a parameter of `executeStep`.
-/

namespace EventHorizon

/-- StepStatus enum from src/db/schema (five states). -/
inductive StepStatus where
  | PENDING
  | RUNNING
  | COMPLETED
  | FAILED
  | BLOCKED
deriving DecidableEq, Repr

/-- A Step document (src/db/schema StepSchema): identity, owning workflow,
name, status, assigned agent, append-only logs, opaque output payload,
and the eligible-not-before timestamp `scheduledFor` (`none` models an
Invalid Date). -/
structure StepDoc where
  id : Nat
  workflowId : Nat
  name : String
  status : StepStatus
  assignedAgent : String
  logs : List String
  output : Option String
  scheduledFor : Option Int
deriving DecidableEq, Repr

/-- The ids of the step documents of a store, in store order. -/
def stepIds (steps : List StepDoc) : List Nat :=
  steps.map (fun t => t.id)

/-- JavaScript comparison `scheduledFor <= now`: false when
`scheduledFor` is an Invalid Date. -/
def dateLe : Option Int → Int → Bool
  | none, _ => false
  | some t, n => decide (t ≤ n)

/-- JavaScript comparison of two Date values with `<`; false when either
is invalid. -/
def dateLtOpt : Option Int → Option Int → Bool
  | some a, some b => decide (a < b)
  | none, _ => false
  | some _, none => false

/-- Eligibility filter of acquireNextStep (engine.ts lines 72-76):
`status = PENDING AND scheduledFor <= now`. -/
def eligible (now : Int) (s : StepDoc) : Bool :=
  s.status == StepStatus.PENDING && dateLe s.scheduledFor now

/-- Sort order of acquireNextStep (engine.ts line 78):
`sort: scheduledFor 1, _id 1` — `a` strictly precedes `b`. -/
def claimBefore (a b : StepDoc) : Bool :=
  dateLtOpt a.scheduledFor b.scheduledFor ||
    (a.scheduledFor == b.scheduledFor && decide (a.id < b.id))

/-- The document `findOneAndUpdate` selects: the first document in
`(scheduledFor, _id)` order among those matching the eligibility filter. -/
def minClaim (now : Int) : List StepDoc → Option StepDoc
  | [] => none
  | s :: rest =>
    let r := minClaim now rest
    if eligible now s then
      match r with
      | none => some s
      | some m => if claimBefore s m then some s else some m
    else r

/-- Per-document update used to model Mongo single-document writes: apply
`f` to the document(s) whose `_id` equals `sid`. -/
def updateStep (sid : Nat) (f : StepDoc → StepDoc) (steps : List StepDoc) :
    List StepDoc :=
  steps.map (fun t => if t.id = sid then f t else t)

/-- acquireNextStep (engine.ts lines 69-81): atomically find the first
eligible step in `(scheduledFor, _id)` order, set it RUNNING, and return
the updated document (`new: true`). -/
def acquireNextStep (now : Int) (steps : List StepDoc) :
    Option StepDoc × List StepDoc :=
  match minClaim now steps with
  | none => (none, steps)
  | some m =>
    (some { m with status := StepStatus.RUNNING },
      updateStep m.id (fun t => { t with status := StepStatus.RUNNING }) steps)

/-- recoverState (engine.ts lines 39-50): every RUNNING step is set back
to PENDING; no other field is touched. -/
def recoverState (steps : List StepDoc) : List StepDoc :=
  steps.map (fun s =>
    if s.status = StepStatus.RUNNING then { s with status := StepStatus.PENDING }
    else s)

/-- Append one line to a step log (`step.logs.push(...)`). -/
def pushLog (msg : String) (t : StepDoc) : StepDoc :=
  { t with logs := t.logs ++ [msg] }

/-- `p` is a prefix of `s` as character lists (JS String.startsWith). -/
def startsWithChars : List Char → List Char → Bool
  | [], _ => true
  | _ :: _, [] => false
  | p :: ps, c :: cs => p = c && startsWithChars ps cs

/-- `step.name.startsWith("WAIT:")` (engine.ts line 113). -/
def isWaitName (name : String) : Bool :=
  startsWithChars "WAIT:".toList name.toList

/-- JS String.split(sep) for a one-character separator: the list of
segments between occurrences of `sep`. -/
def splitCharList (sep : Char) : List Char → List (List Char)
  | [] => [[]]
  | c :: r =>
    if c = sep then [] :: splitCharList sep r
    else
      match splitCharList sep r with
      | [] => [[c]]
      | g :: gs => (c :: g) :: gs

/-- JS String.trim(): strip leading and trailing whitespace. -/
def jsTrim (s : List Char) : List Char :=
  ((s.dropWhile Char.isWhitespace).reverse.dropWhile Char.isWhitespace).reverse

/-- Numeric value of a list of decimal digits. -/
def digitsVal (ds : List Char) : Nat :=
  ds.foldl (fun a c => a * 10 + (c.toNat - 48)) 0

/-- Hexadecimal digit test, for the radix-16 auto-detection of JS
parseInt. -/
def isHexDigitJS (c : Char) : Bool :=
  c.isDigit || (97 ≤ c.toNat && c.toNat ≤ 102)
    || (65 ≤ c.toNat && c.toNat ≤ 70)

/-- Value of one hexadecimal digit. -/
def hexDigitVal (c : Char) : Nat :=
  if c.isDigit then c.toNat - 48
  else if 97 ≤ c.toNat then c.toNat - 87
  else c.toNat - 55

/-- Numeric value of a list of hexadecimal digits. -/
def hexVal (ds : List Char) : Nat :=
  ds.foldl (fun a c => a * 16 + hexDigitVal c) 0

/-- The text begins with 0x or 0X, the radix-16 marker of JS parseInt. -/
def hexPrefix : List Char → Bool
  | c0 :: c1 :: _ => c0 = '0' && (c1 = 'x' || c1 = 'X')
  | _ => false

/-- The digits part of JS parseInt after sign handling: a leading 0x or
0X switches to base 16 (parseInt auto-detects hexadecimal); otherwise
the longest prefix of decimal digits; `none` models the NaN result when
no digit follows. -/
def parseDigitsJS (s : List Char) : Option Nat :=
  if hexPrefix s then
    let ds := (s.drop 2).takeWhile isHexDigitJS
    if ds.isEmpty then none else some (hexVal ds)
  else
    let ds := s.takeWhile Char.isDigit
    if ds.isEmpty then none else some (digitsVal ds)

/-- JS parseInt(str): skip leading whitespace, read an optional sign,
then the digits with 0x hexadecimal auto-detection; `none` models NaN. -/
def parseIntJS (s : List Char) : Option Int :=
  match s.dropWhile Char.isWhitespace with
  | [] => none
  | c :: r =>
    if c = '-' then (parseDigitsJS r).map (fun n => -(n : Int))
    else if c = '+' then (parseDigitsJS r).map (fun n => (n : Int))
    else (parseDigitsJS (c :: r)).map (fun n => (n : Int))

/-- The wait duration computed at engine.ts line 114:
`parseInt(step.name.split(":")[1].trim())`.  The `[1]` segment is the
text between the first and the second colon of the name; `none` models
NaN. -/
def parseWaitMs (name : String) : Option Int :=
  match (splitCharList ':' name.toList).get? 1 with
  | none => none
  | some seg => parseIntJS (jsTrim seg)

/-- The successor lookup used by both the wait branch (engine.ts lines
129-133) and the unblock-next block (lines 256-260): a BLOCKED step of
the same workflow with an `_id` different from the current step. -/
def nextBlockedCandidate (wfId sid : Nat) (t : StepDoc) : Bool :=
  t.workflowId == wfId && t.status == StepStatus.BLOCKED && t.id != sid

/-- `Step.findOne(filter).sort(_id: 1)`: the candidate with the least
`_id`. -/
def findNextBlocked (wfId sid : Nat) : List StepDoc → Option StepDoc
  | [] => none
  | t :: rest =>
    let r := findNextBlocked wfId sid rest
    if nextBlockedCandidate wfId sid t then
      match r with
      | none => some t
      | some m => if t.id < m.id then some t else some m
    else r

/-- The message of the Mongoose date cast error that rejects an Invalid
Date when the successor document is saved with a NaN deadline
(engine.ts line 137; the toISOString call of line 138 would equally
throw a RangeError for such a date, so the write is never persisted). -/
def waitCastError : String :=
  "Cast to date failed at path scheduledFor"

/-- The WAIT branch of executeStep (engine.ts lines 113-140), at the
instant tSched of its Date.now() read (line 136): compute the delay from
the name and set the successor scheduledFor to tSched + ms, logging the
new deadline (toString stands in for toISOString, which is total on
valid dates).  A NaN delay makes the new Date invalid: persisting it
fails the Mongoose date cast, nothing is written, and the error
propagates to the catch block (Except.error). -/
def waitBranch (tSched : Int) (s : StepDoc) (steps : List StepDoc) :
    Except String (List StepDoc) :=
  match findNextBlocked s.workflowId s.id steps with
  | none => Except.ok steps
  | some nxt =>
    match parseWaitMs s.name with
    | none => Except.error waitCastError
    | some m =>
      let steps2 := updateStep nxt.id
        (fun t => { t with scheduledFor := some (tSched + m) }) steps
      Except.ok (updateStep s.id
        (pushLog ("Scheduled next step " ++ nxt.name ++ " for "
          ++ toString (tSched + m))) steps2)

/-- The TRIGGER NEXT STEP block of executeStep (engine.ts lines 254-271):
find the least-id BLOCKED step of the workflow; if its `scheduledFor` is
not in the future reset it to now, otherwise keep it; set it PENDING. -/
def unblockNext (now : Int) (s : StepDoc) (steps : List StepDoc) :
    List StepDoc :=
  match findNextBlocked s.workflowId s.id steps with
  | none => steps
  | some nxt =>
    updateStep nxt.id (fun t =>
      { t with
        scheduledFor := if dateLe t.scheduledFor now then some now
          else t.scheduledFor,
        status := StepStatus.PENDING }) steps

/-- Outcome of the opaque handler part of a step execution (spec section 1:
`execute(stepName, agent, context) -> (outputPayload, contextPatch) | error`). -/
inductive HandlerResult where
  | ok (output : Option String) (contextPatch : List (String × String))
  | error (msg : String)

/-- `if (output !== undefined) step.output = output` (engine.ts lines
173-175); `none` models undefined. -/
def setOutput (output : Option String) (t : StepDoc) : StepDoc :=
  { t with output := if output.isSome then output else t.output }

/-- The store after the start log and the wait branch: Except.ok with
the updated store, or Except.error when the wait branch raised. -/
def waitOutcome (tSched : Int) (s : StepDoc) (steps : List StepDoc) :
    Except String (List StepDoc) :=
  let steps1 := updateStep s.id (pushLog "Started execution") steps
  if isWaitName s.name then waitBranch tSched s steps1 else Except.ok steps1

/-- executeStep (engine.ts lines 83-280) for a claimed step s on the
persisted store.  The awaited saves, lookups and handler work separate
the clock reads, so the call carries two instants: tSched is the
Date.now() read of the wait branch (line 136) and tUnblock the
new Date() reads of the unblock block (lines 265-266); the COMPLETED
write of line 191 lands at some instant between the two.  A wait-branch
error, like a handler error, lands in the catch block (lines 274-279):
the step becomes FAILED with the raised message logged, and no unblock
runs. -/
def executeStep (tSched tUnblock : Int) (s : StepDoc) (hr : HandlerResult)
    (steps : List StepDoc) : List StepDoc :=
  match waitOutcome tSched s steps with
  | Except.error emsg =>
    updateStep s.id (fun t =>
      pushLog ("Error: " ++ emsg) { t with status := StepStatus.FAILED })
      (updateStep s.id (pushLog "Started execution") steps)
  | Except.ok steps2 =>
    match hr with
    | HandlerResult.error msg =>
      updateStep s.id (fun t =>
        pushLog ("Error: " ++ msg) { t with status := StepStatus.FAILED }) steps2
    | HandlerResult.ok output _patch =>
      let steps3 := updateStep s.id (setOutput output) steps2
      let steps4 := updateStep s.id (fun t =>
        pushLog "Completed successfully." { t with status := StepStatus.COMPLETED })
        steps3
      unblockNext tUnblock s steps4

/-- The error a step execution raises, if any: the wait-branch cast
error when the wait deadline is invalid, otherwise the handler error. -/
def execError (tSched : Int) (s : StepDoc) (hr : HandlerResult)
    (steps : List StepDoc) : Option String :=
  match waitOutcome tSched s steps with
  | Except.error emsg => some emsg
  | Except.ok _ =>
    match hr with
    | HandlerResult.error msg => some msg
    | HandlerResult.ok _ _ => none

/-- The context merge of a successful step (engine.ts lines 179-183):
`workflow.context = spread of old context then spread of contextPatch`,
guarded by the patch being non-empty.  JS object spread keeps the keys of
`a` in place (with the value from `b` when `b` also has the key) and
appends the keys of `b` that `a` lacks. -/
def spreadMerge {V : Type} (a b : List (String × V)) : List (String × V) :=
  (a.map (fun kv =>
    match b.lookup kv.1 with
    | some v => (kv.1, v)
    | none => kv))
  ++ b.filter (fun kv => (a.lookup kv.1).isNone)

/-- Context update as performed after a successful handler run. -/
def applyContextPatch {V : Type} (ctx patch : List (String × V)) :
    List (String × V) :=
  if patch.isEmpty then ctx else spreadMerge ctx patch

/-- One step document as built by the schema defaults plus the given
fields (status from the caller, `scheduledFor` defaulting to now, empty
logs, no output). -/
def mkStepDoc (wfId sid : Nat) (now : Int) (name : String)
    (st : StepStatus) (agent : String) : StepDoc :=
  { id := sid, workflowId := wfId, name := name, status := st,
    assignedAgent := agent, logs := [], output := none,
    scheduledFor := some now }

/-- The step documents inserted by EventHorizon.createWorkflow
(engine.ts lines 1010-1019): every document gets `status: PENDING`;
agent and scheduledFor come from the schema defaults. -/
def createWorkflow (wfId baseId : Nat) (now : Int) (names : List String) :
    List StepDoc :=
  names.enum.map (fun p =>
    mkStepDoc wfId (baseId + p.1) now p.2 StepStatus.PENDING "System")

/-- The step documents inserted by the POST /api/workflows handler
(server.ts lines 111-117): index 0 gets PENDING, every other index gets
BLOCKED; `scheduledFor: new Date()`. -/
def serverStepDocs (wfId baseId : Nat) (now : Int)
    (plan : List (String × String)) : List StepDoc :=
  plan.enum.map (fun p =>
    mkStepDoc wfId (baseId + p.1) now p.2.1
      (if p.1 = 0 then StepStatus.PENDING else StepStatus.BLOCKED)
      p.2.2)

/-- The store-level operations the engine performs, used to reason about
whole executions: the startup recovery scan, one claim attempt, and one
step execution (the loop only executes a step it holds RUNNING). -/
inductive EngineOp where
  | recover
  | acquire (now : Int)
  | execute (tSched tUnblock : Int) (sid : Nat) (hr : HandlerResult)

/-- Find a step document by `_id`. -/
def getStep (sid : Nat) (steps : List StepDoc) : Option StepDoc :=
  steps.find? (fun t => t.id == sid)

/-- Apply one engine operation to the store. -/
def applyOp : EngineOp → List StepDoc → List StepDoc
  | EngineOp.recover, steps => recoverState steps
  | EngineOp.acquire now, steps => (acquireNextStep now steps).2
  | EngineOp.execute tSched tUnblock sid hr, steps =>
    match getStep sid steps with
    | some s =>
      if s.status = StepStatus.RUNNING
        then executeStep tSched tUnblock s hr steps else steps
    | none => steps

/-- Apply a sequence of engine operations. -/
def applyOps (ops : List EngineOp) (steps : List StepDoc) : List StepDoc :=
  ops.foldl (fun st op => applyOp op st) steps

/-- The text starts with a decimal digit, optionally preceded by one sign
character: exactly the shapes whose parseIntJS prefix is non-empty. -/
def beginsWithSignedDigit : List Char → Bool
  | [] => false
  | c :: r =>
    if c = '-' ∨ c = '+' then
      match r with
      | [] => false
      | c2 :: _ => c2.isDigit
    else c.isDigit

/-! ## Concrete stores used to instantiate the theorems -/

/-- Two due PENDING steps of one workflow; the earlier-scheduled one must
win the claim. -/
def demoClaimStore : List StepDoc :=
  [mkStepDoc 7 1 0 "Find Flights" StepStatus.PENDING "LogisticsAgent",
   mkStepDoc 7 2 5 "Book Hotel" StepStatus.PENDING "FinancialAgent"]

/-- Exactly one eligible step. -/
def demoSingleStore : List StepDoc :=
  [mkStepDoc 7 1 0 "Find Flights" StepStatus.PENDING "LogisticsAgent",
   mkStepDoc 7 2 0 "Book Hotel" StepStatus.BLOCKED "FinancialAgent"]

/-- A claimed wait step and its BLOCKED successor. -/
def demoWaitStore : List StepDoc :=
  [mkStepDoc 7 1 0 "WAIT: 5000" StepStatus.RUNNING "System",
   mkStepDoc 7 2 0 "Book Hotel" StepStatus.BLOCKED "FinancialAgent"]

/-- A claimed wait step whose duration text is not numeric, plus its
BLOCKED successor. -/
def demoNanStore : List StepDoc :=
  [mkStepDoc 7 1 0 "WAIT: soon" StepStatus.RUNNING "System",
   mkStepDoc 7 2 0 "Book Hotel" StepStatus.BLOCKED "FinancialAgent"]

/-- A claimed ordinary step (about to fail) and its BLOCKED successor. -/
def demoFailStore : List StepDoc :=
  [mkStepDoc 7 1 0 "Find Flights" StepStatus.RUNNING "LogisticsAgent",
   mkStepDoc 7 2 0 "Book Hotel" StepStatus.BLOCKED "FinancialAgent"]

/-- A COMPLETED step and two BLOCKED successors, the second already pushed
into the future by the wait logic. -/
def demoUnblockStore : List StepDoc :=
  [mkStepDoc 7 1 0 "Find Flights" StepStatus.COMPLETED "LogisticsAgent",
   mkStepDoc 7 2 0 "Book Hotel" StepStatus.BLOCKED "FinancialAgent",
   mkStepDoc 7 3 50 "Send Final Itinerary" StepStatus.BLOCKED "Planner"]

/-- A store whose only step already finished. -/
def demoTerminalStore : List StepDoc :=
  [mkStepDoc 7 1 0 "Send Final Itinerary" StepStatus.COMPLETED "Planner"]

/-- A workflow context that already has a value under the key dates. -/
def demoCtx : List (String × String) := [("dates", "june")]

/-- A handler patch that reuses the key dates. -/
def demoPatch : List (String × String) :=
  [("dates", "july"), ("hotels", "hilton")]

/-! ## Generic store lemmas -/

theorem getStep_id {sid : Nat} {steps : List StepDoc} {t : StepDoc}
    (h : getStep sid steps = some t) : t.id = sid := by
  have h2 := List.find?_some h
  simpa using h2

theorem getStep_mem {sid : Nat} {steps : List StepDoc} {t : StepDoc}
    (h : getStep sid steps = some t) : t ∈ steps :=
  List.mem_of_find?_eq_some h

theorem mem_getStep {steps : List StepDoc} (hN : (stepIds steps).Nodup)
    {t : StepDoc} (ht : t ∈ steps) : getStep t.id steps = some t := by
  induction steps with
  | nil => cases ht
  | cons h rest ih =>
    have hids : stepIds (h :: rest) = h.id :: stepIds rest := rfl
    rw [hids, List.nodup_cons] at hN
    rcases List.mem_cons.mp ht with rfl | hmem
    · unfold getStep
      exact List.find?_cons_of_pos _ (by simp)
    · have hne : ¬(h.id == t.id) = true := by
        simp only [beq_iff_eq]
        intro heq
        exact hN.1 (heq ▸ List.mem_map_of_mem (fun u => u.id) hmem)
      have hstep : List.find? (fun u => u.id == t.id) (h :: rest)
          = List.find? (fun u => u.id == t.id) rest :=
        List.find?_cons_of_neg rest hne
      unfold getStep
      rw [hstep]
      exact ih hN.2 hmem

theorem uniqById {steps : List StepDoc} (hN : (stepIds steps).Nodup)
    {a b : StepDoc} (ha : a ∈ steps) (hb : b ∈ steps) (hid : a.id = b.id) :
    a = b :=
  List.inj_on_of_nodup_map hN ha hb hid

theorem getStep_updateStep (sid tid : Nat) (f : StepDoc → StepDoc)
    (hf : ∀ u, (f u).id = u.id) (steps : List StepDoc) :
    getStep sid (updateStep tid f steps)
      = (getStep sid steps).map (fun u => if u.id = tid then f u else u) := by
  unfold getStep updateStep
  rw [List.find?_map]
  have hpg : ((fun t => t.id == sid) ∘ fun t : StepDoc => if t.id = tid then f t else t)
      = (fun t : StepDoc => t.id == sid) := by
    funext u
    by_cases h : u.id = tid <;> simp [Function.comp, h, hf]
  rw [hpg]

theorem stepIds_updateStep (tid : Nat) (f : StepDoc → StepDoc)
    (hf : ∀ u, (f u).id = u.id) (steps : List StepDoc) :
    stepIds (updateStep tid f steps) = stepIds steps := by
  unfold stepIds updateStep
  rw [List.map_map]
  congr 1
  funext u
  by_cases h : u.id = tid <;> simp [h, hf]

theorem mem_updateStep_of_mem {steps : List StepDoc} {t : StepDoc}
    (ht : t ∈ steps) (tid : Nat) (f : StepDoc → StepDoc) :
    (if t.id = tid then f t else t) ∈ updateStep tid f steps :=
  List.mem_map_of_mem _ ht

theorem of_mem_updateStep {steps : List StepDoc} {t' : StepDoc}
    {tid : Nat} {f : StepDoc → StepDoc}
    (h : t' ∈ updateStep tid f steps) :
    ∃ t ∈ steps, t' = if t.id = tid then f t else t := by
  rcases List.mem_map.mp h with ⟨t, ht, hEq⟩
  exact ⟨t, ht, hEq.symm⟩

/-! ## Claim-order lemmas -/

theorem eligible_some_sched {now : Int} {s : StepDoc}
    (h : eligible now s = true) : ∃ x, s.scheduledFor = some x ∧ x ≤ now := by
  unfold eligible dateLe at h
  cases hs : s.scheduledFor with
  | none => rw [hs] at h; simp at h
  | some x =>
    rw [hs] at h
    simp at h
    exact ⟨x, rfl, h.2⟩

theorem eligible_pending {now : Int} {s : StepDoc}
    (h : eligible now s = true) : s.status = StepStatus.PENDING := by
  unfold eligible at h
  simp at h
  exact h.1

theorem claimBefore_irrefl (a : StepDoc) : claimBefore a a = false := by
  unfold claimBefore dateLtOpt
  cases a.scheduledFor <;> simp

theorem claimBefore_trans {a b c : StepDoc} {x y z : Int}
    (ha : a.scheduledFor = some x) (hb : b.scheduledFor = some y)
    (hc : c.scheduledFor = some z)
    (h1 : claimBefore a b = true) (h2 : claimBefore b c = true) :
    claimBefore a c = true := by
  unfold claimBefore dateLtOpt at h1 h2 ⊢
  rw [ha, hb] at h1
  rw [hb, hc] at h2
  rw [ha, hc]
  simp only [Bool.or_eq_true, Bool.and_eq_true, beq_iff_eq, Option.some.injEq,
    decide_eq_true_eq] at h1 h2 ⊢
  rcases h1 with h1 | ⟨h1e, h1i⟩ <;> rcases h2 with h2 | ⟨h2e, h2i⟩
  · exact Or.inl (lt_trans h1 h2)
  · exact Or.inl (h2e ▸ h1)
  · exact Or.inl (h1e ▸ h2)
  · exact Or.inr ⟨h1e.trans h2e, lt_trans h1i h2i⟩

theorem minClaim_cons (now : Int) (s : StepDoc) (rest : List StepDoc) :
    minClaim now (s :: rest)
      = if eligible now s then
          match minClaim now rest with
          | none => some s
          | some m => if claimBefore s m then some s else some m
        else minClaim now rest := rfl

theorem minClaim_eq_none {now : Int} {steps : List StepDoc} :
    minClaim now steps = none ↔ ∀ s ∈ steps, eligible now s = false := by
  induction steps with
  | nil => simp [minClaim]
  | cons h rest ih =>
    rw [minClaim_cons]
    by_cases he : eligible now h = true
    · rw [if_pos he]
      constructor
      · intro hnone
        exfalso
        cases hr : minClaim now rest with
        | none => rw [hr] at hnone; cases hnone
        | some m0 =>
          rw [hr] at hnone
          replace hnone : (if claimBefore h m0 = true then some h else some m0)
              = (none : Option StepDoc) := hnone
          by_cases hcb : claimBefore h m0 = true
          · rw [if_pos hcb] at hnone; cases hnone
          · rw [if_neg hcb] at hnone; cases hnone
      · intro hall
        have := hall h (List.mem_cons_self h rest)
        rw [this] at he
        cases he
    · rw [if_neg he]
      have he' : eligible now h = false := by
        cases hEq : eligible now h
        · rfl
        · exact absurd hEq he
      rw [ih]
      constructor
      · intro hall s hs
        rcases List.mem_cons.mp hs with rfl | hmem
        · exact he'
        · exact hall s hmem
      · intro hall s hs
        exact hall s (List.mem_cons_of_mem _ hs)

theorem minClaim_mem {now : Int} {steps : List StepDoc} {m : StepDoc}
    (h : minClaim now steps = some m) : m ∈ steps ∧ eligible now m = true := by
  induction steps with
  | nil => simp [minClaim] at h
  | cons hd rest ih =>
    rw [minClaim_cons] at h
    by_cases he : eligible now hd = true
    · rw [if_pos he] at h
      cases hr : minClaim now rest with
      | none =>
        rw [hr] at h
        cases h
        exact ⟨List.mem_cons_self _ _, he⟩
      | some m0 =>
        rw [hr] at h
        replace h : (if claimBefore hd m0 = true then some hd else some m0)
            = some m := h
        by_cases hcb : claimBefore hd m0 = true
        · rw [if_pos hcb] at h
          cases h
          exact ⟨List.mem_cons_self _ _, he⟩
        · rw [if_neg hcb] at h
          cases h
          rcases ih hr with ⟨hmem, helig⟩
          exact ⟨List.mem_cons_of_mem _ hmem, helig⟩
    · rw [if_neg he] at h
      rcases ih h with ⟨hmem, helig⟩
      exact ⟨List.mem_cons_of_mem _ hmem, helig⟩

theorem minClaim_min {now : Int} {steps : List StepDoc} {m : StepDoc}
    (h : minClaim now steps = some m) :
    ∀ s ∈ steps, eligible now s = true → claimBefore s m = false := by
  induction steps generalizing m with
  | nil => simp [minClaim] at h
  | cons hd rest ih =>
    rw [minClaim_cons] at h
    by_cases he : eligible now hd = true
    · rw [if_pos he] at h
      cases hr : minClaim now rest with
      | none =>
        rw [hr] at h
        cases h
        intro s hs helig
        rcases List.mem_cons.mp hs with rfl | hmem
        · exact claimBefore_irrefl s
        · exact absurd (minClaim_eq_none.mp hr s hmem) (by simp [helig])
      | some m0 =>
        rw [hr] at h
        replace h : (if claimBefore hd m0 = true then some hd else some m0)
            = some m := h
        rcases minClaim_mem hr with ⟨hm0mem, hm0elig⟩
        by_cases hcb : claimBefore hd m0 = true
        · rw [if_pos hcb] at h
          cases h
          intro s hs helig
          rcases List.mem_cons.mp hs with rfl | hmem
          · exact claimBefore_irrefl s
          · cases hsb : claimBefore s hd
            · rfl
            · exfalso
              rcases eligible_some_sched helig with ⟨x, hx, _⟩
              rcases eligible_some_sched he with ⟨y, hy, _⟩
              rcases eligible_some_sched hm0elig with ⟨z, hz, _⟩
              have htr := claimBefore_trans hx hy hz hsb hcb
              have hmin := ih hr s hmem helig
              rw [hmin] at htr
              cases htr
        · rw [if_neg hcb] at h
          cases h
          intro s hs helig
          rcases List.mem_cons.mp hs with rfl | hmem
          · cases hEq : claimBefore s m
            · rfl
            · exact absurd hEq hcb
          · exact ih hr s hmem helig
    · rw [if_neg he] at h
      intro s hs helig
      rcases List.mem_cons.mp hs with rfl | hmem
      · rw [helig] at he
        exact absurd rfl he
      · exact ih h s hmem helig

/-! ## Successor-lookup lemmas -/

theorem nextBlockedCandidate_iff {wfId sid : Nat} {t : StepDoc} :
    nextBlockedCandidate wfId sid t = true
      ↔ t.workflowId = wfId ∧ t.status = StepStatus.BLOCKED ∧ t.id ≠ sid := by
  unfold nextBlockedCandidate
  simp [and_assoc]

theorem findNextBlocked_cons (wfId sid : Nat) (t : StepDoc)
    (rest : List StepDoc) :
    findNextBlocked wfId sid (t :: rest)
      = if nextBlockedCandidate wfId sid t then
          match findNextBlocked wfId sid rest with
          | none => some t
          | some m => if t.id < m.id then some t else some m
        else findNextBlocked wfId sid rest := rfl

theorem findNextBlocked_eq_none {wfId sid : Nat} {steps : List StepDoc} :
    findNextBlocked wfId sid steps = none
      ↔ ∀ t ∈ steps, nextBlockedCandidate wfId sid t = false := by
  induction steps with
  | nil => simp [findNextBlocked]
  | cons hd rest ih =>
    rw [findNextBlocked_cons]
    by_cases hc : nextBlockedCandidate wfId sid hd = true
    · rw [if_pos hc]
      constructor
      · intro hnone
        exfalso
        cases hr : findNextBlocked wfId sid rest with
        | none => rw [hr] at hnone; cases hnone
        | some m0 =>
          rw [hr] at hnone
          replace hnone : (if hd.id < m0.id then some hd else some m0)
              = (none : Option StepDoc) := hnone
          by_cases hlt : hd.id < m0.id
          · rw [if_pos hlt] at hnone; cases hnone
          · rw [if_neg hlt] at hnone; cases hnone
      · intro hall
        have := hall hd (List.mem_cons_self hd rest)
        rw [this] at hc
        cases hc
    · rw [if_neg hc]
      have hc' : nextBlockedCandidate wfId sid hd = false := by
        cases hEq : nextBlockedCandidate wfId sid hd
        · rfl
        · exact absurd hEq hc
      rw [ih]
      constructor
      · intro hall t hmem
        rcases List.mem_cons.mp hmem with rfl | hmem
        · exact hc'
        · exact hall t hmem
      · intro hall t hmem
        exact hall t (List.mem_cons_of_mem _ hmem)

theorem findNextBlocked_mem {wfId sid : Nat} {steps : List StepDoc}
    {m : StepDoc} (h : findNextBlocked wfId sid steps = some m) :
    m ∈ steps ∧ nextBlockedCandidate wfId sid m = true := by
  induction steps with
  | nil => simp [findNextBlocked] at h
  | cons hd rest ih =>
    rw [findNextBlocked_cons] at h
    by_cases hc : nextBlockedCandidate wfId sid hd = true
    · rw [if_pos hc] at h
      cases hr : findNextBlocked wfId sid rest with
      | none =>
        rw [hr] at h
        cases h
        exact ⟨List.mem_cons_self _ _, hc⟩
      | some m0 =>
        rw [hr] at h
        replace h : (if hd.id < m0.id then some hd else some m0) = some m := h
        by_cases hlt : hd.id < m0.id
        · rw [if_pos hlt] at h
          cases h
          exact ⟨List.mem_cons_self _ _, hc⟩
        · rw [if_neg hlt] at h
          cases h
          rcases ih hr with ⟨hmem, hcand⟩
          exact ⟨List.mem_cons_of_mem _ hmem, hcand⟩
    · rw [if_neg hc] at h
      rcases ih h with ⟨hmem, hcand⟩
      exact ⟨List.mem_cons_of_mem _ hmem, hcand⟩

theorem findNextBlocked_min {wfId sid : Nat} {steps : List StepDoc}
    {m : StepDoc} (h : findNextBlocked wfId sid steps = some m) :
    ∀ t ∈ steps, nextBlockedCandidate wfId sid t = true → m.id ≤ t.id := by
  induction steps generalizing m with
  | nil => simp [findNextBlocked] at h
  | cons hd rest ih =>
    rw [findNextBlocked_cons] at h
    by_cases hc : nextBlockedCandidate wfId sid hd = true
    · rw [if_pos hc] at h
      cases hr : findNextBlocked wfId sid rest with
      | none =>
        rw [hr] at h
        cases h
        intro t hmem hcand
        rcases List.mem_cons.mp hmem with rfl | hmem
        · exact Nat.le_refl _
        · exact absurd (findNextBlocked_eq_none.mp hr t hmem) (by simp [hcand])
      | some m0 =>
        rw [hr] at h
        replace h : (if hd.id < m0.id then some hd else some m0) = some m := h
        by_cases hlt : hd.id < m0.id
        · rw [if_pos hlt] at h
          cases h
          intro t hmem hcand
          rcases List.mem_cons.mp hmem with rfl | hmem
          · exact Nat.le_refl _
          · have := ih hr t hmem hcand
            omega
        · rw [if_neg hlt] at h
          cases h
          intro t hmem hcand
          rcases List.mem_cons.mp hmem with rfl | hmem
          · omega
          · exact ih hr t hmem hcand
    · rw [if_neg hc] at h
      intro t hmem hcand
      rcases List.mem_cons.mp hmem with rfl | hmem
      · rw [hcand] at hc
        exact absurd rfl hc
      · exact ih h t hmem hcand

/-! ## Commutation of lookups with per-document updates -/

theorem getStep_map (g : StepDoc → StepDoc) (hg : ∀ u, (g u).id = u.id)
    (sid : Nat) (steps : List StepDoc) :
    getStep sid (steps.map g) = (getStep sid steps).map g := by
  unfold getStep
  rw [List.find?_map]
  have hpg : ((fun t => t.id == sid) ∘ g) = (fun t : StepDoc => t.id == sid) := by
    funext u
    simp [Function.comp, hg]
  rw [hpg]

theorem stepIds_map (g : StepDoc → StepDoc) (hg : ∀ u, (g u).id = u.id)
    (steps : List StepDoc) :
    stepIds (steps.map g) = stepIds steps := by
  unfold stepIds
  rw [List.map_map]
  congr 1
  funext u
  simp [Function.comp, hg]

theorem findNextBlocked_map (wfId sid : Nat) (g : StepDoc → StepDoc)
    (hid : ∀ u, (g u).id = u.id) (hst : ∀ u, (g u).status = u.status)
    (hwf : ∀ u, (g u).workflowId = u.workflowId) (steps : List StepDoc) :
    findNextBlocked wfId sid (steps.map g)
      = (findNextBlocked wfId sid steps).map g := by
  induction steps with
  | nil => rfl
  | cons t rest ih =>
    rw [List.map_cons, findNextBlocked_cons, findNextBlocked_cons, ih]
    have hcand : nextBlockedCandidate wfId sid (g t)
        = nextBlockedCandidate wfId sid t := by
      unfold nextBlockedCandidate
      rw [hid, hst, hwf]
    rw [hcand]
    by_cases hc : nextBlockedCandidate wfId sid t = true
    · rw [if_pos hc, if_pos hc]
      cases hr : findNextBlocked wfId sid rest with
      | none => rfl
      | some m =>
        simp only [Option.map_some']
        rw [hid t, hid m]
        by_cases hlt : t.id < m.id
        · rw [if_pos hlt, if_pos hlt]
          rfl
        · rw [if_neg hlt, if_neg hlt]
          rfl
    · rw [if_neg hc, if_neg hc]

theorem updateStep_eq_map (tid : Nat) (f : StepDoc → StepDoc)
    (steps : List StepDoc) :
    updateStep tid f steps = steps.map (fun t => if t.id = tid then f t else t) :=
  rfl

/-! ## Unfolding equations for executeStep -/

theorem executeStep_of_waitError (tS tU : Int) (s : StepDoc)
    (hr : HandlerResult) (steps : List StepDoc) {e : String}
    (hwo : waitOutcome tS s steps = Except.error e) :
    executeStep tS tU s hr steps
      = updateStep s.id (fun t =>
          pushLog ("Error: " ++ e) { t with status := StepStatus.FAILED })
          (updateStep s.id (pushLog "Started execution") steps) := by
  unfold executeStep
  rw [hwo]

theorem executeStep_of_ok_error (tS tU : Int) (s : StepDoc) (msg : String)
    (steps : List StepDoc) {steps2 : List StepDoc}
    (hwo : waitOutcome tS s steps = Except.ok steps2) :
    executeStep tS tU s (HandlerResult.error msg) steps
      = updateStep s.id (fun t =>
          pushLog ("Error: " ++ msg) { t with status := StepStatus.FAILED })
          steps2 := by
  unfold executeStep
  rw [hwo]

theorem executeStep_of_ok_ok (tS tU : Int) (s : StepDoc)
    (output : Option String) (patch : List (String × String))
    (steps : List StepDoc) {steps2 : List StepDoc}
    (hwo : waitOutcome tS s steps = Except.ok steps2) :
    executeStep tS tU s (HandlerResult.ok output patch) steps
      = unblockNext tU s
          (updateStep s.id
            (fun t => pushLog "Completed successfully."
              { t with status := StepStatus.COMPLETED })
            (updateStep s.id (setOutput output) steps2)) := by
  unfold executeStep
  rw [hwo]

/-- The three shapes a wait outcome can take: no wait branch ran (or it
found no successor), the wait branch scheduled the successor, or the
wait branch raised the date-cast error. -/
theorem waitOutcome_cases (tS : Int) (s : StepDoc) (steps : List StepDoc) :
    waitOutcome tS s steps
        = Except.ok (updateStep s.id (pushLog "Started execution") steps) ∨
    (∃ nxt m,
      findNextBlocked s.workflowId s.id
          (updateStep s.id (pushLog "Started execution") steps) = some nxt ∧
      parseWaitMs s.name = some m ∧
      waitOutcome tS s steps
        = Except.ok (updateStep s.id
            (pushLog ("Scheduled next step " ++ nxt.name ++ " for "
              ++ toString (tS + m)))
            (updateStep nxt.id
              (fun t => { t with scheduledFor := some (tS + m) })
              (updateStep s.id (pushLog "Started execution") steps)))) ∨
    waitOutcome tS s steps = Except.error waitCastError := by
  unfold waitOutcome
  by_cases hw : isWaitName s.name = true
  · rw [if_pos hw]
    unfold waitBranch
    cases hfb : findNextBlocked s.workflowId s.id
        (updateStep s.id (pushLog "Started execution") steps) with
    | none => exact Or.inl rfl
    | some nxt =>
      cases hms : parseWaitMs s.name with
      | none => exact Or.inr (Or.inr rfl)
      | some m => exact Or.inr (Or.inl ⟨nxt, m, rfl, rfl, rfl⟩)
  · rw [if_neg hw]
    exact Or.inl rfl

theorem stepIds_waitOutcome {tS : Int} {s : StepDoc}
    {steps steps2 : List StepDoc}
    (hwo : waitOutcome tS s steps = Except.ok steps2) :
    stepIds steps2 = stepIds steps := by
  rcases waitOutcome_cases tS s steps with h | ⟨nxt, m, -, -, h⟩ | h
  · rw [h] at hwo
    injection hwo with h2
    subst h2
    rw [stepIds_updateStep]
    exact fun u => rfl
  · rw [h] at hwo
    injection hwo with h2
    subst h2
    rw [stepIds_updateStep, stepIds_updateStep, stepIds_updateStep]
    · exact fun u => rfl
    · exact fun u => rfl
    · exact fun u => rfl
  · rw [h] at hwo
    cases hwo

theorem stepIds_unblockNext (now : Int) (s : StepDoc) (steps : List StepDoc) :
    stepIds (unblockNext now s steps) = stepIds steps := by
  unfold unblockNext
  cases hfb : findNextBlocked s.workflowId s.id steps with
  | none => rfl
  | some nxt =>
    rw [stepIds_updateStep]
    exact fun u => rfl

theorem stepIds_executeStep (tS tU : Int) (s : StepDoc) (hr : HandlerResult)
    (steps : List StepDoc) :
    stepIds (executeStep tS tU s hr steps) = stepIds steps := by
  cases hwo : waitOutcome tS s steps with
  | error e =>
    rw [executeStep_of_waitError tS tU s hr steps hwo,
      stepIds_updateStep, stepIds_updateStep]
    · exact fun u => rfl
    · exact fun u => rfl
  | ok steps2 =>
    have h2 := stepIds_waitOutcome hwo
    cases hr with
    | error msg =>
      rw [executeStep_of_ok_error tS tU s msg steps hwo, stepIds_updateStep, h2]
      exact fun u => rfl
    | ok output patch =>
      rw [executeStep_of_ok_ok tS tU s output patch steps hwo,
        stepIds_unblockNext, stepIds_updateStep, stepIds_updateStep, h2]
      · exact fun u => rfl
      · exact fun u => rfl

theorem stepIds_recoverState (steps : List StepDoc) :
    stepIds (recoverState steps) = stepIds steps := by
  unfold recoverState
  rw [stepIds_map]
  intro u
  by_cases h : u.status = StepStatus.RUNNING <;> simp [h]

theorem stepIds_acquire (now : Int) (steps : List StepDoc) :
    stepIds (acquireNextStep now steps).2 = stepIds steps := by
  unfold acquireNextStep
  cases hm : minClaim now steps with
  | none => rfl
  | some m =>
    rw [stepIds_updateStep]
    exact fun u => rfl

theorem applyOp_execute (tS tU : Int) (sid : Nat) (hr : HandlerResult)
    (steps : List StepDoc) :
    applyOp (EngineOp.execute tS tU sid hr) steps
      = match getStep sid steps with
        | some s =>
          if s.status = StepStatus.RUNNING
            then executeStep tS tU s hr steps else steps
        | none => steps := rfl

theorem stepIds_applyOp (op : EngineOp) (steps : List StepDoc) :
    stepIds (applyOp op steps) = stepIds steps := by
  cases op with
  | recover => exact stepIds_recoverState steps
  | acquire now => exact stepIds_acquire now steps
  | execute tS tU sid hr =>
    rw [applyOp_execute]
    cases hg : getStep sid steps with
    | none => rfl
    | some s =>
      show stepIds (if s.status = StepStatus.RUNNING
          then executeStep tS tU s hr steps else steps) = stepIds steps
      by_cases hrun : s.status = StepStatus.RUNNING
      · rw [if_pos hrun]
        exact stepIds_executeStep tS tU s hr steps
      · rw [if_neg hrun]

/-! ## Field-preserving tracking through updates -/

theorem getStep_updateStep_pres {steps : List StepDoc} {sid : Nat} {t : StepDoc}
    (tid : Nat) (f : StepDoc → StepDoc)
    (hid : ∀ u, (f u).id = u.id) (hst : ∀ u, (f u).status = u.status)
    (hwf : ∀ u, (f u).workflowId = u.workflowId)
    (ht : getStep sid steps = some t) :
    ∃ t', getStep sid (updateStep tid f steps) = some t' ∧
      t'.id = t.id ∧ t'.status = t.status ∧ t'.workflowId = t.workflowId := by
  rw [getStep_updateStep sid tid f hid, ht]
  refine ⟨_, rfl, ?_, ?_, ?_⟩ <;>
    by_cases h : t.id = tid <;> simp [h, hid, hst, hwf]

theorem getStep_waitOutcome_pres {tS : Int} {s : StepDoc}
    {steps steps2 : List StepDoc}
    (hwo : waitOutcome tS s steps = Except.ok steps2)
    {sid : Nat} {t : StepDoc} (ht : getStep sid steps = some t) :
    ∃ t', getStep sid steps2 = some t' ∧
      t'.id = t.id ∧ t'.status = t.status ∧ t'.workflowId = t.workflowId := by
  rcases waitOutcome_cases tS s steps with h | ⟨nxt, m, -, -, h⟩ | h
  · rw [h] at hwo
    injection hwo with h2
    subst h2
    exact getStep_updateStep_pres s.id (pushLog "Started execution")
      (fun u => rfl) (fun u => rfl) (fun u => rfl) ht
  · rw [h] at hwo
    injection hwo with h2
    subst h2
    obtain ⟨t1, h1, h1id, h1st, h1wf⟩ :=
      getStep_updateStep_pres s.id (pushLog "Started execution")
        (fun u => rfl) (fun u => rfl) (fun u => rfl) ht
    obtain ⟨t2, h2, h2id, h2st, h2wf⟩ :=
      getStep_updateStep_pres nxt.id
        (fun u => { u with scheduledFor := some (tS + m) })
        (fun u => rfl) (fun u => rfl) (fun u => rfl) h1
    obtain ⟨t3, h3, h3id, h3st, h3wf⟩ :=
      getStep_updateStep_pres s.id
        (pushLog ("Scheduled next step " ++ nxt.name ++ " for "
          ++ toString (tS + m)))
        (fun u => rfl) (fun u => rfl) (fun u => rfl) h2
    exact ⟨t3, h3, (h3id.trans h2id).trans h1id,
      (h3st.trans h2st).trans h1st, (h3wf.trans h2wf).trans h1wf⟩
  · rw [h] at hwo
    cases hwo

theorem getStep_updateStep_setStatus {steps : List StepDoc} {sid : Nat}
    {t : StepDoc} (tid : Nat) (f : StepDoc → StepDoc)
    (hid : ∀ u, (f u).id = u.id) (hwf : ∀ u, (f u).workflowId = u.workflowId)
    (ht : getStep sid steps = some t) :
    ∃ t', getStep sid (updateStep tid f steps) = some t' ∧
      t'.id = t.id ∧ t'.workflowId = t.workflowId ∧
      ((t.id ≠ tid ∧ t' = t) ∨ (t.id = tid ∧ t' = f t)) := by
  rw [getStep_updateStep sid tid f hid, ht]
  by_cases h : t.id = tid
  · exact ⟨f t, by simp [h], hid t, hwf t, Or.inr ⟨h, rfl⟩⟩
  · exact ⟨t, by simp [h], rfl, rfl, Or.inl ⟨h, rfl⟩⟩

theorem getStep_unblockNext_status (now : Int) (s : StepDoc)
    {steps : List StepDoc} {sid : Nat} {t : StepDoc}
    (hN : (stepIds steps).Nodup) (ht : getStep sid steps = some t) :
    ∃ t', getStep sid (unblockNext now s steps) = some t' ∧
      t'.id = t.id ∧ t'.workflowId = t.workflowId ∧
      (t' = t ∨ (t.status = StepStatus.BLOCKED ∧ t.workflowId = s.workflowId ∧
        t.id ≠ s.id ∧ t'.status = StepStatus.PENDING)) := by
  unfold unblockNext
  cases hfb : findNextBlocked s.workflowId s.id steps with
  | none => exact ⟨t, ht, rfl, rfl, Or.inl rfl⟩
  | some nxt =>
    obtain ⟨t', h', hid', hwf', hcase⟩ :=
      getStep_updateStep_setStatus nxt.id
        (fun u => { u with
          scheduledFor := if dateLe u.scheduledFor now then some now
            else u.scheduledFor,
          status := StepStatus.PENDING })
        (fun u => rfl) (fun u => rfl) ht
    rcases hcase with ⟨-, h12⟩ | ⟨hideq, h12⟩
    · exact ⟨t', h', hid', hwf', Or.inl h12⟩
    · rcases findNextBlocked_mem hfb with ⟨hnmem, hncand⟩
      rcases nextBlockedCandidate_iff.mp hncand with ⟨hnwf, hnst, hnid⟩
      have hgn : getStep nxt.id steps = some nxt := mem_getStep hN hnmem
      have hsid : sid = nxt.id := by
        have h0 := getStep_id ht
        omega
      have hteq : t = nxt := by
        rw [hsid] at ht
        rw [ht] at hgn
        exact Option.some.inj hgn
      refine ⟨t', h', hid', hwf', Or.inr ⟨?_, ?_, ?_, ?_⟩⟩
      · rw [hteq]
        exact hnst
      · rw [hteq]
        exact hnwf
      · rw [hteq]
        exact hnid
      · rw [h12]

theorem getStep_executeStep_status (tS tU : Int) (s : StepDoc)
    (hr : HandlerResult) (steps : List StepDoc)
    (hN : (stepIds steps).Nodup) {sid : Nat} {t : StepDoc}
    (ht : getStep sid steps = some t) :
    ∃ t', getStep sid (executeStep tS tU s hr steps) = some t' ∧
      t'.id = t.id ∧ t'.workflowId = t.workflowId ∧
      (t'.status = t.status ∨
        (sid = s.id ∧
          (t'.status = StepStatus.COMPLETED ∨ t'.status = StepStatus.FAILED)) ∨
        (t.status = StepStatus.BLOCKED ∧ t'.status = StepStatus.PENDING ∧
          t.workflowId = s.workflowId)) := by
  have hsid : t.id = sid := getStep_id ht
  cases hwo : waitOutcome tS s steps with
  | error e =>
    rw [executeStep_of_waitError tS tU s hr steps hwo]
    obtain ⟨t1, ht1, h1id, h1st, h1wf⟩ :=
      getStep_updateStep_pres s.id (pushLog "Started execution")
        (fun u => rfl) (fun u => rfl) (fun u => rfl) ht
    obtain ⟨t', h', hid', hwf', hcase⟩ :=
      getStep_updateStep_setStatus s.id
        (fun u => pushLog ("Error: " ++ e) { u with status := StepStatus.FAILED })
        (fun u => rfl) (fun u => rfl) ht1
    refine ⟨t', h', hid'.trans h1id, hwf'.trans h1wf, ?_⟩
    rcases hcase with ⟨-, rfl⟩ | ⟨hideq, rfl⟩
    · exact Or.inl h1st
    · refine Or.inr (Or.inl ⟨?_, Or.inr rfl⟩)
      omega
  | ok steps2 =>
    obtain ⟨t2, ht2, h2id, h2st, h2wf⟩ := getStep_waitOutcome_pres hwo ht
    cases hr with
    | error msg =>
      rw [executeStep_of_ok_error tS tU s msg steps hwo]
      obtain ⟨t', h', hid', hwf', hcase⟩ :=
        getStep_updateStep_setStatus s.id
          (fun u => pushLog ("Error: " ++ msg) { u with status := StepStatus.FAILED })
          (fun u => rfl) (fun u => rfl) ht2
      refine ⟨t', h', hid'.trans h2id, hwf'.trans h2wf, ?_⟩
      rcases hcase with ⟨-, rfl⟩ | ⟨hideq, rfl⟩
      · exact Or.inl h2st
      · refine Or.inr (Or.inl ⟨?_, Or.inr rfl⟩)
        omega
    | ok output patch =>
      rw [executeStep_of_ok_ok tS tU s output patch steps hwo]
      obtain ⟨t3, ht3, h3id, h3st, h3wf⟩ :=
        getStep_updateStep_pres s.id (setOutput output)
          (fun u => rfl) (fun u => rfl) (fun u => rfl) ht2
      obtain ⟨t4, ht4, h4id, h4wf, h4case⟩ :=
        getStep_updateStep_setStatus s.id
          (fun u => pushLog "Completed successfully."
            { u with status := StepStatus.COMPLETED })
          (fun u => rfl) (fun u => rfl) ht3
      have hN4 : (stepIds (updateStep s.id
          (fun u => pushLog "Completed successfully."
            { u with status := StepStatus.COMPLETED })
          (updateStep s.id (setOutput output) steps2))).Nodup := by
        rw [stepIds_updateStep, stepIds_updateStep, stepIds_waitOutcome hwo]
        · exact hN
        · exact fun u => rfl
        · exact fun u => rfl
      obtain ⟨t', h', hid', hwf', hcase⟩ := getStep_unblockNext_status tU s hN4 ht4
      refine ⟨t', h', hid'.trans (h4id.trans (h3id.trans h2id)),
        hwf'.trans (h4wf.trans (h3wf.trans h2wf)), ?_⟩
      rcases hcase with rfl | ⟨hbl, hblwf, -, hpend⟩
      · rcases h4case with ⟨-, rfl⟩ | ⟨hideq, rfl⟩
        · exact Or.inl ((h3st.trans h2st).trans rfl)
        · refine Or.inr (Or.inl ⟨?_, Or.inl rfl⟩)
          omega
      · rcases h4case with ⟨-, rfl⟩ | ⟨hideq, rfl⟩
        · refine Or.inr (Or.inr ⟨?_, hpend, ?_⟩)
          · rw [← h2st, ← h3st]
            exact hbl
          · rw [← h2wf, ← h3wf]
            exact hblwf
        · exfalso
          simp [pushLog] at hbl

theorem getStep_recoverState (sid : Nat) (steps : List StepDoc) :
    getStep sid (recoverState steps)
      = (getStep sid steps).map (fun u =>
          if u.status = StepStatus.RUNNING
            then { u with status := StepStatus.PENDING } else u) := by
  unfold recoverState
  exact getStep_map _
    (fun u => by by_cases h : u.status = StepStatus.RUNNING <;> simp [h]) sid steps

theorem acquireNextStep_eq (now : Int) (steps : List StepDoc) :
    acquireNextStep now steps
      = match minClaim now steps with
        | none => (none, steps)
        | some m =>
          (some { m with status := StepStatus.RUNNING },
            updateStep m.id (fun t => { t with status := StepStatus.RUNNING })
              steps) := rfl

theorem applyOp_status (op : EngineOp) (steps : List StepDoc)
    (hN : (stepIds steps).Nodup) {sid : Nat} {t t' : StepDoc}
    (ht : getStep sid steps = some t)
    (ht' : getStep sid (applyOp op steps) = some t') :
    t'.id = t.id ∧ t'.workflowId = t.workflowId ∧
    (t'.status = t.status ∨
      (op = EngineOp.recover ∧ t.status = StepStatus.RUNNING ∧
        t'.status = StepStatus.PENDING) ∨
      ((∃ now, op = EngineOp.acquire now) ∧ t.status = StepStatus.PENDING ∧
        t'.status = StepStatus.RUNNING) ∨
      (∃ tS tU sid0 hr s, op = EngineOp.execute tS tU sid0 hr ∧
        getStep sid0 steps = some s ∧ s.status = StepStatus.RUNNING ∧
        ((sid = s.id ∧ t.status = StepStatus.RUNNING ∧
          (t'.status = StepStatus.COMPLETED ∨ t'.status = StepStatus.FAILED)) ∨
         (t.status = StepStatus.BLOCKED ∧ t'.status = StepStatus.PENDING ∧
          t.workflowId = s.workflowId)))) := by
  cases op with
  | recover =>
    have h2 : getStep sid (applyOp EngineOp.recover steps)
        = some (if t.status = StepStatus.RUNNING
            then { t with status := StepStatus.PENDING } else t) := by
      show getStep sid (recoverState steps) = _
      rw [getStep_recoverState, ht]
      rfl
    rw [ht'] at h2
    have h3 := Option.some.inj h2
    by_cases hrun : t.status = StepStatus.RUNNING
    · rw [if_pos hrun] at h3
      subst h3
      exact ⟨rfl, rfl, Or.inr (Or.inl ⟨rfl, hrun, rfl⟩)⟩
    · rw [if_neg hrun] at h3
      subst h3
      exact ⟨rfl, rfl, Or.inl rfl⟩
  | acquire now =>
    have hstore : applyOp (EngineOp.acquire now) steps = (acquireNextStep now steps).2 := rfl
    rw [hstore] at ht'
    cases hm : minClaim now steps with
    | none =>
      rw [acquireNextStep_eq, hm] at ht'
      replace ht' : getStep sid steps = some t' := ht'
      rw [ht] at ht'
      cases Option.some.inj ht'
      exact ⟨rfl, rfl, Or.inl rfl⟩
    | some m =>
      rw [acquireNextStep_eq, hm] at ht'
      replace ht' : getStep sid
          (updateStep m.id (fun u => { u with status := StepStatus.RUNNING }) steps)
          = some t' := ht'
      rw [getStep_updateStep sid m.id
        (fun u => { u with status := StepStatus.RUNNING }) (fun u => rfl), ht] at ht'
      have h3 := Option.some.inj ht'
      replace h3 : (if t.id = m.id then { t with status := StepStatus.RUNNING }
          else t) = t' := h3
      by_cases hid : t.id = m.id
      · rw [if_pos hid] at h3
        rcases minClaim_mem hm with ⟨hmmem, hmelig⟩
        have htm : t = m := uniqById hN (getStep_mem ht) hmmem hid
        subst h3
        refine ⟨rfl, rfl, Or.inr (Or.inr (Or.inl ⟨⟨now, rfl⟩, ?_, rfl⟩))⟩
        rw [htm]
        exact eligible_pending hmelig
      · rw [if_neg hid] at h3
        subst h3
        exact ⟨rfl, rfl, Or.inl rfl⟩
  | execute tS tU sid0 hr =>
    rw [applyOp_execute] at ht'
    cases hg : getStep sid0 steps with
    | none =>
      rw [hg] at ht'
      replace ht' : getStep sid steps = some t' := ht'
      rw [ht] at ht'
      cases Option.some.inj ht'
      exact ⟨rfl, rfl, Or.inl rfl⟩
    | some s =>
      rw [hg] at ht'
      by_cases hrun : s.status = StepStatus.RUNNING
      · replace ht' : getStep sid (executeStep tS tU s hr steps) = some t' := by
          replace ht' : getStep sid (if s.status = StepStatus.RUNNING
              then executeStep tS tU s hr steps else steps) = some t' := ht'
          rw [if_pos hrun] at ht'
          exact ht'
        obtain ⟨t2, ht2, h2id, h2wf, h2case⟩ :=
          getStep_executeStep_status tS tU s hr steps hN ht
        rw [ht2] at ht'
        cases Option.some.inj ht'
        refine ⟨h2id, h2wf, ?_⟩
        rcases h2case with hsame | ⟨hsid, hterm⟩ | ⟨hbl, hpend, hwfeq⟩
        · exact Or.inl hsame
        · refine Or.inr (Or.inr (Or.inr ⟨tS, tU, sid0, hr, s, rfl, hg, hrun,
            Or.inl ⟨hsid, ?_, hterm⟩⟩))
          have hts : t = s := by
            have hid0 : s.id = sid0 := getStep_id hg
            rw [hsid, hid0] at ht
            rw [ht] at hg
            exact Option.some.inj hg
          rw [hts]
          exact hrun
        · exact Or.inr (Or.inr (Or.inr ⟨tS, tU, sid0, hr, s, rfl, hg, hrun,
            Or.inr ⟨hbl, hpend, hwfeq⟩⟩))
      · replace ht' : getStep sid steps = some t' := by
          replace ht' : getStep sid (if s.status = StepStatus.RUNNING
              then executeStep tS tU s hr steps else steps) = some t' := ht'
          rw [if_neg hrun] at ht'
          exact ht'
        rw [ht] at ht'
        cases Option.some.inj ht'
        exact ⟨rfl, rfl, Or.inl rfl⟩

/-! ## Single-id update computations -/

theorem getStep_updateStep_ne {sid tid : Nat} (hne : sid ≠ tid)
    (f : StepDoc → StepDoc) (hid : ∀ u, (f u).id = u.id)
    (steps : List StepDoc) :
    getStep sid (updateStep tid f steps) = getStep sid steps := by
  rw [getStep_updateStep sid tid f hid]
  cases h : getStep sid steps with
  | none => rfl
  | some u =>
    have := getStep_id h
    simp only [Option.map_some']
    rw [if_neg (by omega)]

theorem getStep_updateStep_self (tid : Nat) (f : StepDoc → StepDoc)
    (hid : ∀ u, (f u).id = u.id) (steps : List StepDoc) :
    getStep tid (updateStep tid f steps) = (getStep tid steps).map f := by
  rw [getStep_updateStep tid tid f hid]
  cases h : getStep tid steps with
  | none => rfl
  | some u =>
    have := getStep_id h
    simp only [Option.map_some']
    rw [if_pos this]

theorem findNextBlocked_updateStep (wfId sid tid : Nat) (f : StepDoc → StepDoc)
    (hid : ∀ u, (f u).id = u.id) (hst : ∀ u, (f u).status = u.status)
    (hwf : ∀ u, (f u).workflowId = u.workflowId) (steps : List StepDoc) :
    findNextBlocked wfId sid (updateStep tid f steps)
      = (findNextBlocked wfId sid steps).map
          (fun u => if u.id = tid then f u else u) := by
  rw [updateStep_eq_map]
  refine findNextBlocked_map wfId sid _ ?_ ?_ ?_ steps <;>
    intro u <;> by_cases h : u.id = tid <;> simp [h, hid, hst, hwf]

theorem findNextBlocked_updateStep_self (wfId sid : Nat)
    (f : StepDoc → StepDoc) (hid : ∀ u, (f u).id = u.id)
    (steps : List StepDoc) :
    findNextBlocked wfId sid (updateStep sid f steps)
      = findNextBlocked wfId sid steps := by
  induction steps with
  | nil => rfl
  | cons t rest ih =>
    have hupd : updateStep sid f (t :: rest)
        = (if t.id = sid then f t else t) :: updateStep sid f rest := rfl
    rw [hupd, findNextBlocked_cons, findNextBlocked_cons, ih]
    by_cases hts : t.id = sid
    · rw [if_pos hts]
      have hc1 : nextBlockedCandidate wfId sid (f t) = false := by
        unfold nextBlockedCandidate
        simp [hid, hts]
      have hc2 : nextBlockedCandidate wfId sid t = false := by
        unfold nextBlockedCandidate
        simp [hts]
      rw [hc1, hc2]
      simp
    · rw [if_neg hts]

theorem acquireNextStep_none {now : Int} {steps : List StepDoc}
    (hm : minClaim now steps = none) :
    acquireNextStep now steps = (none, steps) := by
  rw [acquireNextStep_eq, hm]

theorem acquireNextStep_some {now : Int} {steps : List StepDoc} {m : StepDoc}
    (hm : minClaim now steps = some m) :
    acquireNextStep now steps
      = (some { m with status := StepStatus.RUNNING },
          updateStep m.id (fun u => { u with status := StepStatus.RUNNING })
            steps) := by
  rw [acquireNextStep_eq, hm]

/-! ## parseInt lemmas -/

theorem beginsWithSignedDigit_cons (c : Char) (r : List Char) :
    beginsWithSignedDigit (c :: r)
      = if c = '-' ∨ c = '+' then
          match r with
          | [] => false
          | c2 :: _ => c2.isDigit
        else c.isDigit := rfl

theorem parseIntJS_cons (c : Char) (r cs : List Char)
    (ht : cs.dropWhile Char.isWhitespace = c :: r) :
    parseIntJS cs
      = if c = '-' then (parseDigitsJS r).map (fun n => -(n : Int))
        else if c = '+' then (parseDigitsJS r).map (fun n => (n : Int))
        else (parseDigitsJS (c :: r)).map (fun n => (n : Int)) := by
  unfold parseIntJS
  rw [ht]

theorem parseDigitsJS_eq_none {c : Char} {r : List Char}
    (hc : c.isDigit = false) : parseDigitsJS (c :: r) = none := by
  have hhp : hexPrefix (c :: r) = false := by
    cases r with
    | nil => rfl
    | cons c1 r2 =>
      have hc0 : decide (c = '0') = false := by
        cases hdec : decide (c = '0')
        · rfl
        · exfalso
          have h0 := of_decide_eq_true hdec
          subst h0
          exact absurd hc (by decide)
      show (decide (c = '0') && (decide (c1 = 'x') || decide (c1 = 'X')))
          = false
      rw [hc0]
      rfl
  unfold parseDigitsJS
  rw [hhp]
  simp [List.takeWhile_cons, hc]

theorem parseIntJS_eq_none {cs : List Char}
    (h : beginsWithSignedDigit (cs.dropWhile Char.isWhitespace) = false) :
    parseIntJS cs = none := by
  cases ht : cs.dropWhile Char.isWhitespace with
  | nil =>
    unfold parseIntJS
    rw [ht]
  | cons c r =>
    rw [ht, beginsWithSignedDigit_cons] at h
    rw [parseIntJS_cons c r cs ht]
    by_cases hsign : c = '-' ∨ c = '+'
    · rw [if_pos hsign] at h
      have hr : parseDigitsJS r = none := by
        cases r with
        | nil => rfl
        | cons c2 r2 =>
          replace h : c2.isDigit = false := h
          exact parseDigitsJS_eq_none h
      rcases hsign with h1 | h1
      · subst h1
        rw [if_pos rfl, hr]
        rfl
      · subst h1
        rw [if_neg (by decide), if_pos rfl, hr]
        rfl
    · push_neg at hsign
      rw [if_neg (by push_neg; exact hsign)] at h
      rw [if_neg hsign.1, if_neg hsign.2, parseDigitsJS_eq_none h]
      rfl

/-- Hexadecimal auto-detection of JS parseInt on a sample input:
parseInt of 0x10 is 16. -/
theorem parseIntJS_hex_example : parseIntJS "0x10".toList = some 16 := by
  decide

theorem parseWaitMs_eq_none {name : String} {seg : List Char}
    (hseg : (splitCharList ':' name.toList).get? 1 = some seg)
    (h : beginsWithSignedDigit ((jsTrim seg).dropWhile Char.isWhitespace)
      = false) :
    parseWaitMs name = none := by
  unfold parseWaitMs
  rw [hseg]
  exact parseIntJS_eq_none h

/-! ## Lookup lemmas for the context merge -/

theorem lookup_append {V : Type} (l1 l2 : List (String × V)) (k : String) :
    List.lookup k (l1 ++ l2)
      = match List.lookup k l1 with
        | some v => some v
        | none => List.lookup k l2 := by
  induction l1 with
  | nil => simp
  | cons kv tl ih =>
    rcases kv with ⟨k0, v0⟩
    by_cases hkeq : k = k0
    · subst hkeq
      simp [List.lookup_cons]
    · have hk : (k == k0) = false := by simp [hkeq]
      simp [List.lookup_cons, hk, ih]

theorem lookup_map_overlay {V : Type} (a b : List (String × V)) (k : String) :
    List.lookup k (a.map (fun kv =>
        match List.lookup kv.1 b with
        | some v => (kv.1, v)
        | none => kv))
      = match List.lookup k a with
        | none => none
        | some v =>
          match List.lookup k b with
          | some w => some w
          | none => some v := by
  induction a with
  | nil => simp
  | cons kv tl ih =>
    rcases kv with ⟨k0, v0⟩
    by_cases hkeq : k = k0
    · subst hkeq
      cases hb : List.lookup k b with
      | none => simp [List.lookup_cons, hb, ih]
      | some w => simp [List.lookup_cons, hb, ih]
    · have hk : (k == k0) = false := by simp [hkeq]
      cases hb : List.lookup k0 b with
      | none => simp [List.lookup_cons, hb, hk, ih]
      | some w => simp [List.lookup_cons, hb, hk, ih]

theorem lookup_filter_free {V : Type} (a b : List (String × V)) (k : String)
    (ha : List.lookup k a = none) :
    List.lookup k (b.filter (fun kv => (List.lookup kv.1 a).isNone))
      = List.lookup k b := by
  induction b with
  | nil => simp
  | cons kv tl ih =>
    rcases kv with ⟨k1, v1⟩
    by_cases hkeq : k = k1
    · subst hkeq
      simp [List.filter_cons, ha, List.lookup_cons]
    · have hk : (k == k1) = false := by simp [hkeq]
      cases hkeep : List.lookup k1 a with
      | none => simp [List.filter_cons, hkeep, List.lookup_cons, hk, ih]
      | some w => simp [List.filter_cons, hkeep, List.lookup_cons, hk, ih]

theorem lookup_spreadMerge {V : Type} (a b : List (String × V)) (k : String) :
    List.lookup k (spreadMerge a b)
      = match List.lookup k b with
        | some v => some v
        | none => List.lookup k a := by
  unfold spreadMerge
  rw [lookup_append, lookup_map_overlay]
  have hf := lookup_filter_free a b k
  cases ha : List.lookup k a with
  | some v => cases hb : List.lookup k b <;> simp [hb]
  | none =>
    cases hb : List.lookup k b <;> simp [hb, hf ha]

/-! ## The effect of executing a wait step successfully -/

theorem executeStep_wait_getSteps (tS tU d : Int) (s nxt : StepDoc)
    (out : Option String) (patch : List (String × String))
    (steps : List StepDoc) (hN : (stepIds steps).Nodup) (hs : s ∈ steps)
    (hwait : isWaitName s.name = true)
    (hms : parseWaitMs s.name = some d)
    (hnb : findNextBlocked s.workflowId s.id steps = some nxt) :
    ∃ s', getStep s.id (executeStep tS tU s (HandlerResult.ok out patch) steps)
        = some s' ∧ s'.status = StepStatus.COMPLETED ∧
      getStep nxt.id (executeStep tS tU s (HandlerResult.ok out patch) steps)
        = some { nxt with
            scheduledFor := if tS + d ≤ tU then some tU else some (tS + d),
            status := StepStatus.PENDING } := by
  rcases findNextBlocked_mem hnb with ⟨hnmem, hncand⟩
  rcases nextBlockedCandidate_iff.mp hncand with ⟨hnwf, hnst, hnid⟩
  have hgn : getStep nxt.id steps = some nxt := mem_getStep hN hnmem
  have hgs : getStep s.id steps = some s := mem_getStep hN hs
  have hnb1 : findNextBlocked s.workflowId s.id
      (updateStep s.id (pushLog "Started execution") steps) = some nxt := by
    rw [findNextBlocked_updateStep s.workflowId s.id s.id
      (pushLog "Started execution") (fun u => rfl) (fun u => rfl) (fun u => rfl)
      steps, hnb]
    simp [hnid]
  have hwo : waitOutcome tS s steps
      = Except.ok (updateStep s.id
          (pushLog ("Scheduled next step " ++ nxt.name ++ " for "
            ++ toString (tS + d)))
          (updateStep nxt.id
            (fun u => { u with scheduledFor := some (tS + d) })
            (updateStep s.id (pushLog "Started execution") steps))) := by
    unfold waitOutcome
    rw [if_pos hwait]
    unfold waitBranch
    rw [hms, hnb1]
  have hF : executeStep tS tU s (HandlerResult.ok out patch) steps
      = unblockNext tU s
          (updateStep s.id
            (fun t => pushLog "Completed successfully."
              { t with status := StepStatus.COMPLETED })
            (updateStep s.id (setOutput out)
              (updateStep s.id
                (pushLog ("Scheduled next step " ++ nxt.name ++ " for "
                  ++ toString (tS + d)))
                (updateStep nxt.id
                  (fun u => { u with scheduledFor := some (tS + d) })
                  (updateStep s.id (pushLog "Started execution") steps))))) :=
    executeStep_of_ok_ok tS tU s out patch steps hwo
  have hg4 : getStep nxt.id
      (updateStep s.id
        (fun t => pushLog "Completed successfully."
          { t with status := StepStatus.COMPLETED })
        (updateStep s.id (setOutput out)
          (updateStep s.id
            (pushLog ("Scheduled next step " ++ nxt.name ++ " for "
              ++ toString (tS + d)))
            (updateStep nxt.id
              (fun u => { u with scheduledFor := some (tS + d) })
              (updateStep s.id (pushLog "Started execution") steps)))))
      = some { nxt with scheduledFor := some (tS + d) } := by
    rw [getStep_updateStep_ne hnid
        (fun t => pushLog "Completed successfully."
          { t with status := StepStatus.COMPLETED }) (fun u => rfl),
      getStep_updateStep_ne hnid (setOutput out) (fun u => rfl),
      getStep_updateStep_ne hnid
        (pushLog ("Scheduled next step " ++ nxt.name ++ " for "
          ++ toString (tS + d))) (fun u => rfl),
      getStep_updateStep_self nxt.id
        (fun u => { u with scheduledFor := some (tS + d) })
        (fun u => rfl),
      getStep_updateStep_ne hnid (pushLog "Started execution") (fun u => rfl),
      hgn]
    rfl
  have hnb4 : findNextBlocked s.workflowId s.id
      (updateStep s.id
        (fun t => pushLog "Completed successfully."
          { t with status := StepStatus.COMPLETED })
        (updateStep s.id (setOutput out)
          (updateStep s.id
            (pushLog ("Scheduled next step " ++ nxt.name ++ " for "
              ++ toString (tS + d)))
            (updateStep nxt.id
              (fun u => { u with scheduledFor := some (tS + d) })
              (updateStep s.id (pushLog "Started execution") steps)))))
      = some { nxt with scheduledFor := some (tS + d) } := by
    rw [findNextBlocked_updateStep_self s.workflowId s.id
        (fun t => pushLog "Completed successfully."
          { t with status := StepStatus.COMPLETED })
        (fun u => rfl),
      findNextBlocked_updateStep_self s.workflowId s.id (setOutput out)
        (fun u => rfl),
      findNextBlocked_updateStep_self s.workflowId s.id
        (pushLog ("Scheduled next step " ++ nxt.name ++ " for "
          ++ toString (tS + d)))
        (fun u => rfl),
      findNextBlocked_updateStep s.workflowId s.id nxt.id
        (fun u => { u with scheduledFor := some (tS + d) })
        (fun u => rfl) (fun u => rfl) (fun u => rfl),
      findNextBlocked_updateStep_self s.workflowId s.id
        (pushLog "Started execution")
        (fun u => rfl),
      hnb]
    simp [hnid]
  have hub : unblockNext tU s
      (updateStep s.id
        (fun t => pushLog "Completed successfully."
          { t with status := StepStatus.COMPLETED })
        (updateStep s.id (setOutput out)
          (updateStep s.id
            (pushLog ("Scheduled next step " ++ nxt.name ++ " for "
              ++ toString (tS + d)))
            (updateStep nxt.id
              (fun u => { u with scheduledFor := some (tS + d) })
              (updateStep s.id (pushLog "Started execution") steps)))))
      = updateStep nxt.id
          (fun u => { u with
            scheduledFor := if dateLe u.scheduledFor tU then some tU
              else u.scheduledFor,
            status := StepStatus.PENDING })
          (updateStep s.id
            (fun t => pushLog "Completed successfully."
              { t with status := StepStatus.COMPLETED })
            (updateStep s.id (setOutput out)
              (updateStep s.id
                (pushLog ("Scheduled next step " ++ nxt.name ++ " for "
                  ++ toString (tS + d)))
                (updateStep nxt.id
                  (fun u => { u with scheduledFor := some (tS + d) })
                  (updateStep s.id (pushLog "Started execution") steps))))) := by
    unfold unblockNext
    rw [hnb4]
  refine ⟨pushLog "Completed successfully."
      { (setOutput out (pushLog ("Scheduled next step " ++ nxt.name ++ " for "
          ++ toString (tS + d))
          (pushLog "Started execution" s))) with
        status := StepStatus.COMPLETED }, ?_, rfl, ?_⟩
  · rw [hF, hub,
      getStep_updateStep_ne (fun h => hnid h.symm)
        (fun u => { u with
          scheduledFor := if dateLe u.scheduledFor tU then some tU
            else u.scheduledFor,
          status := StepStatus.PENDING }) (fun u => rfl),
      getStep_updateStep_self s.id
        (fun t => pushLog "Completed successfully."
          { t with status := StepStatus.COMPLETED }) (fun u => rfl),
      getStep_updateStep_self s.id (setOutput out) (fun u => rfl),
      getStep_updateStep_self s.id
        (pushLog ("Scheduled next step " ++ nxt.name ++ " for "
          ++ toString (tS + d))) (fun u => rfl),
      getStep_updateStep_ne (fun h => hnid h.symm)
        (fun u => { u with scheduledFor := some (tS + d) })
        (fun u => rfl),
      getStep_updateStep_self s.id (pushLog "Started execution") (fun u => rfl),
      hgs]
    rfl
  · rw [hF, hub,
      getStep_updateStep_self nxt.id
        (fun u => { u with
          scheduledFor := if dateLe u.scheduledFor tU then some tU
            else u.scheduledFor,
          status := StepStatus.PENDING }) (fun u => rfl),
      hg4]
    simp only [Option.map_some']
    by_cases hle : tS + d ≤ tU
    · simp [dateLe, hle]
    · simp [dateLe, hle]

/-! ## Claim theorems -/

/-- Claim C1: a claim call on a store with unique ids either finds no
eligible step (state = PENDING and scheduledFor due) and then returns none
and changes nothing, or returns an eligible PENDING step that is minimal
in the (scheduledFor, _id) order among all eligible steps, transitions
exactly that step to RUNNING and leaves every other document unchanged. -/
theorem claim_C1_acquireNextStep (now : Int) (steps : List StepDoc)
    (hN : (stepIds steps).Nodup) :
    ((∀ s ∈ steps, eligible now s = false) →
      acquireNextStep now steps = (none, steps)) ∧
    ((∃ e ∈ steps, eligible now e = true) →
      ∃ m ∈ steps, eligible now m = true ∧ m.status = StepStatus.PENDING ∧
        (∀ s ∈ steps, eligible now s = true → claimBefore s m = false) ∧
        (acquireNextStep now steps).1
          = some { m with status := StepStatus.RUNNING } ∧
        { m with status := StepStatus.RUNNING } ∈ (acquireNextStep now steps).2 ∧
        (∀ u ∈ steps, u.id ≠ m.id → u ∈ (acquireNextStep now steps).2) ∧
        (∀ u ∈ (acquireNextStep now steps).2,
          u = { m with status := StepStatus.RUNNING }
            ∨ (u.id ≠ m.id ∧ u ∈ steps))) := by
  constructor
  · intro hall
    exact acquireNextStep_none (minClaim_eq_none.mpr hall)
  · rintro ⟨e, he, helig⟩
    cases hm : minClaim now steps with
    | none => exact absurd (minClaim_eq_none.mp hm e he) (by simp [helig])
    | some m =>
      rcases minClaim_mem hm with ⟨hmmem, hmelig⟩
      have hacq := acquireNextStep_some hm
      refine ⟨m, hmmem, hmelig, eligible_pending hmelig, minClaim_min hm,
        ?_, ?_, ?_, ?_⟩
      · rw [hacq]
      · rw [hacq]
        have hmem := mem_updateStep_of_mem hmmem m.id
          (fun u => { u with status := StepStatus.RUNNING })
        rw [if_pos rfl] at hmem
        exact hmem
      · intro u hu hne
        rw [hacq]
        have hmem := mem_updateStep_of_mem hu m.id
          (fun u => { u with status := StepStatus.RUNNING })
        rw [if_neg hne] at hmem
        exact hmem
      · intro u hu
        rw [hacq] at hu
        rcases of_mem_updateStep hu with ⟨v, hv, hEq⟩
        by_cases hvid : v.id = m.id
        · left
          have hvm : v = m := uniqById hN hv hmmem hvid
          rw [hEq, if_pos hvid, hvm]
        · right
          rw [hEq, if_neg hvid]
          exact ⟨hvid, hv⟩

/-- Witness for C1 at a concrete two-step store at time 10. -/
theorem claim_C1_acquireNextStep_witness :
    ((∀ s ∈ demoClaimStore, eligible 10 s = false) →
      acquireNextStep 10 demoClaimStore = (none, demoClaimStore)) ∧
    ((∃ e ∈ demoClaimStore, eligible 10 e = true) →
      ∃ m ∈ demoClaimStore, eligible 10 m = true ∧
        m.status = StepStatus.PENDING ∧
        (∀ s ∈ demoClaimStore, eligible 10 s = true → claimBefore s m = false) ∧
        (acquireNextStep 10 demoClaimStore).1
          = some { m with status := StepStatus.RUNNING } ∧
        { m with status := StepStatus.RUNNING }
          ∈ (acquireNextStep 10 demoClaimStore).2 ∧
        (∀ u ∈ demoClaimStore, u.id ≠ m.id →
          u ∈ (acquireNextStep 10 demoClaimStore).2) ∧
        (∀ u ∈ (acquireNextStep 10 demoClaimStore).2,
          u = { m with status := StepStatus.RUNNING }
            ∨ (u.id ≠ m.id ∧ u ∈ demoClaimStore))) :=
  claim_C1_acquireNextStep 10 demoClaimStore (by decide)

/-- Claim C9: with a single eligible step e, of two claim attempts run
against the store the first returns e claimed as RUNNING and the second
observes no eligible work; the step at the id of e is RUNNING afterwards,
so no double claim occurs. -/
theorem claim_C9_no_double_claim (now : Int) (steps : List StepDoc)
    (e : StepDoc) (hN : (stepIds steps).Nodup) (he : e ∈ steps)
    (helig : eligible now e = true)
    (honly : ∀ s ∈ steps, eligible now s = true → s = e) :
    ∃ st1, acquireNextStep now steps
        = (some { e with status := StepStatus.RUNNING }, st1) ∧
      acquireNextStep now st1 = (none, st1) ∧
      (∀ u ∈ st1, u.id = e.id → u.status = StepStatus.RUNNING) := by
  cases hm : minClaim now steps with
  | none => exact absurd (minClaim_eq_none.mp hm e he) (by simp [helig])
  | some m =>
    rcases minClaim_mem hm with ⟨hmmem, hmelig⟩
    have hme : m = e := honly m hmmem hmelig
    subst hme
    refine ⟨_, acquireNextStep_some hm, ?_, ?_⟩
    · apply acquireNextStep_none
      apply minClaim_eq_none.mpr
      intro u hu
      rcases of_mem_updateStep hu with ⟨v, hv, hEq⟩
      by_cases hvid : v.id = m.id
      · rw [hEq, if_pos hvid]
        simp [eligible]
      · rw [hEq, if_neg hvid]
        cases hve : eligible now v
        · rfl
        · have hvm := honly v hv hve
          rw [hvm] at hvid
          exact absurd rfl hvid
    · intro u hu hid
      rcases of_mem_updateStep hu with ⟨v, hv, hEq⟩
      by_cases hvid : v.id = m.id
      · rw [hEq, if_pos hvid]
      · rw [hEq, if_neg hvid] at hid
        exact absurd hid hvid

/-- Witness for C9: one eligible step among two, claimed at time 10. -/
theorem claim_C9_no_double_claim_witness :
    ∃ st1, acquireNextStep 10 demoSingleStore
        = (some { mkStepDoc 7 1 0 "Find Flights" StepStatus.PENDING
            "LogisticsAgent" with status := StepStatus.RUNNING }, st1) ∧
      acquireNextStep 10 st1 = (none, st1) ∧
      (∀ u ∈ st1,
        u.id = (mkStepDoc 7 1 0 "Find Flights" StepStatus.PENDING
          "LogisticsAgent").id →
        u.status = StepStatus.RUNNING) :=
  claim_C9_no_double_claim 10 demoSingleStore
    (mkStepDoc 7 1 0 "Find Flights" StepStatus.PENDING "LogisticsAgent")
    (by decide) (by decide) (by decide) (by decide)

/-- Counterexample to claim C3 as stated: engine.createWorkflow with the
two-step list of the resilience seed marks the second inserted document
PENDING, not BLOCKED. -/
theorem claim_C3_counterexample :
    ¬ (∀ d ∈ createWorkflow 0 0 0 ["Initialize System", "Load Context"],
        d.id ≠ 0 → d.status = StepStatus.BLOCKED) := by decide

/-- Claim C3 amended: every step document inserted by engine.createWorkflow
starts PENDING regardless of position; the first-PENDING, rest-BLOCKED
shape holds for the documents that the POST /api/workflows handler builds
and inserts itself (it calls createWorkflow with an empty list). -/
theorem claim_C3_createWorkflow (wfId baseId : Nat) (now : Int)
    (names : List String) (plan : List (String × String))
    (hne : names ≠ []) :
    createWorkflow wfId baseId now names ≠ [] ∧
    (∀ d ∈ createWorkflow wfId baseId now names,
      d.status = StepStatus.PENDING) ∧
    (∀ d ∈ serverStepDocs wfId baseId now plan,
      (d.id = baseId → d.status = StepStatus.PENDING) ∧
      (baseId < d.id → d.status = StepStatus.BLOCKED)) := by
  refine ⟨?_, ?_, ?_⟩
  · have hlen : (createWorkflow wfId baseId now names).length = names.length := by
      simp [createWorkflow]
    intro hnil
    rw [hnil] at hlen
    exact hne (List.eq_nil_of_length_eq_zero hlen.symm)
  · intro d hd
    rcases List.mem_map.mp hd with ⟨p, hp, rfl⟩
    rfl
  · intro d hd
    rcases List.mem_map.mp hd with ⟨p, hp, rfl⟩
    constructor
    · intro hid
      have hp0 : p.1 = 0 := by
        simp only [mkStepDoc] at hid
        omega
      simp [mkStepDoc, hp0]
    · intro hid
      have hp0 : p.1 ≠ 0 := by
        simp only [mkStepDoc] at hid
        omega
      simp [mkStepDoc, hp0]

/-- Witness for the amended C3 at the resilience-seed step list and a
two-entry plan. -/
theorem claim_C3_createWorkflow_witness :
    createWorkflow 0 0 0 ["Initialize System", "Load Context"] ≠ [] ∧
    (∀ d ∈ createWorkflow 0 0 0 ["Initialize System", "Load Context"],
      d.status = StepStatus.PENDING) ∧
    (∀ d ∈ serverStepDocs 0 0 0
        [("Find Flights", "LogisticsAgent"), ("Book Hotel", "FinancialAgent")],
      (d.id = 0 → d.status = StepStatus.PENDING) ∧
      (0 < d.id → d.status = StepStatus.BLOCKED)) :=
  claim_C3_createWorkflow 0 0 0 ["Initialize System", "Load Context"]
    [("Find Flights", "LogisticsAgent"), ("Book Hotel", "FinancialAgent")]
    (by decide)

/-- Counterexample to claim C4 as stated: recovery run at time 100 over a
RUNNING step scheduled at 5 leaves scheduledFor at 5; it is not set to the
current time. -/
theorem claim_C4_counterexample :
    recoverState [mkStepDoc 9 1 5 "Apply for Visa" StepStatus.RUNNING "VisaAgent"]
      = [mkStepDoc 9 1 5 "Apply for Visa" StepStatus.PENDING "VisaAgent"] ∧
    (mkStepDoc 9 1 5 "Apply for Visa" StepStatus.PENDING "VisaAgent").scheduledFor
      ≠ some 100 := by decide

/-- Claim C4 amended: recovery sets every RUNNING step back to PENDING and
touches nothing else — scheduledFor keeps its old value; because a claimed
step had scheduledFor due at claim time, the recovered step is again
eligible whenever its old scheduledFor is not in the future. -/
theorem claim_C4_recoverState (steps : List StepDoc) (now : Int) :
    (∀ s ∈ steps, s.status = StepStatus.RUNNING →
      ({ s with status := StepStatus.PENDING } ∈ recoverState steps ∧
        (dateLe s.scheduledFor now = true →
          eligible now { s with status := StepStatus.PENDING } = true))) ∧
    (∀ s ∈ steps, s.status ≠ StepStatus.RUNNING → s ∈ recoverState steps) := by
  constructor
  · intro s hs hrun
    constructor
    · have hmem := List.mem_map_of_mem (fun u =>
        if u.status = StepStatus.RUNNING
          then { u with status := StepStatus.PENDING } else u) hs
      replace hmem : (if s.status = StepStatus.RUNNING
          then { s with status := StepStatus.PENDING } else s)
          ∈ recoverState steps := hmem
      rw [if_pos hrun] at hmem
      exact hmem
    · intro hdue
      simp [eligible, hdue]
  · intro s hs hrun
    have hmem := List.mem_map_of_mem (fun u =>
      if u.status = StepStatus.RUNNING
        then { u with status := StepStatus.PENDING } else u) hs
    replace hmem : (if s.status = StepStatus.RUNNING
        then { s with status := StepStatus.PENDING } else s)
        ∈ recoverState steps := hmem
    rw [if_neg hrun] at hmem
    exact hmem

/-- Counterexample to claim C5 as stated: a patch key already present in
the context overwrites the existing value (JS spread gives the patch
precedence). -/
theorem claim_C5_counterexample :
    List.lookup "dates" (applyContextPatch demoCtx demoPatch) = some "july" ∧
    List.lookup "dates" demoCtx = some "june" ∧
    List.lookup "hotels" (applyContextPatch demoCtx demoPatch) = some "hilton" ∧
    ("july" : String) ≠ "june" := by decide

/-- Claim C5 amended: merging a context patch adds the patch keys and,
for a key present in both, the patch value wins; keys absent from the
patch keep their context value. -/
theorem claim_C5_context_merge {V : Type} (ctx patch : List (String × V))
    (k : String) :
    List.lookup k (applyContextPatch ctx patch)
      = match List.lookup k patch with
        | some v => some v
        | none => List.lookup k ctx := by
  unfold applyContextPatch
  by_cases hp : patch.isEmpty = true
  · rw [if_pos hp]
    have hnil : patch = [] := by
      cases patch with
      | nil => rfl
      | cons a b => simp [List.isEmpty] at hp
    subst hnil
    simp
  · rw [if_neg hp]
    exact lookup_spreadMerge ctx patch k

/-- Claim C2 counterexample: the claim demands scheduledFor of the
successor to be at least completionTime of the wait step plus d once the
wait step completes.  In a run where the wait branch's Date.now() read
happens at instant 100 and the awaited saves and lookups between
engine.ts line 136 and the COMPLETED write of line 191 delay completion
to instant 200, the successor's deadline is 100 + 5000 = 5100, strictly
below completionTime + d = 5200: the schedule write precedes completion,
so the claimed inequality fails. -/
theorem claim_C2_counterexample :
    getStep 2 (executeStep 100 200
        (mkStepDoc 7 1 0 "WAIT: 5000" StepStatus.RUNNING "System")
        (HandlerResult.ok none []) demoWaitStore)
      = some { mkStepDoc 7 2 0 "Book Hotel" StepStatus.BLOCKED
          "FinancialAgent" with
          scheduledFor := some 5100,
          status := StepStatus.PENDING } ∧
    ¬((200 : Int) + 5000 ≤ 5100) := by
  refine ⟨by decide, by decide⟩

/-- Claim C2 (amended): executing a claimed wait step with delay d sets
the successor scheduledFor to tSched + d at the wait branch's clock
read, which precedes the COMPLETED write at some later instant
tComplete — so the deadline satisfies scheduledFor = tSched + d
≤ tComplete + d, not the claimed scheduledFor ≥ completionTime + d.  The
wait step ends COMPLETED, the successor PENDING with that deadline (the
unblock block leaves a still-future deadline untouched), and any claim
attempt at an instant before the deadline finds the successor ineligible
and never returns its id. -/
theorem claim_C2_wait_scheduling (tSched tComplete tUnblock d : Int)
    (steps : List StepDoc) (s nxt : StepDoc) (out : Option String)
    (patch : List (String × String))
    (hN : (stepIds steps).Nodup) (hs : s ∈ steps)
    (hwait : isWaitName s.name = true)
    (hms : parseWaitMs s.name = some d)
    (hsc : tSched ≤ tComplete) (hcu : tComplete ≤ tUnblock)
    (hfuture : tUnblock < tSched + d)
    (hnb : findNextBlocked s.workflowId s.id steps = some nxt) :
    ∃ s' nxt',
      getStep s.id (executeStep tSched tUnblock s
          (HandlerResult.ok out patch) steps) = some s' ∧
      getStep nxt.id (executeStep tSched tUnblock s
          (HandlerResult.ok out patch) steps) = some nxt' ∧
      s'.status = StepStatus.COMPLETED ∧
      nxt'.status = StepStatus.PENDING ∧
      nxt'.scheduledFor = some (tSched + d) ∧
      tSched + d ≤ tComplete + d ∧
      (∀ tm : Int, tm < tSched + d → eligible tm nxt' = false) ∧
      (∀ tm : Int, tm < tSched + d → ∀ r st2,
        acquireNextStep tm
            (executeStep tSched tUnblock s (HandlerResult.ok out patch) steps)
          = (some r, st2) → r.id ≠ nxt.id) := by
  obtain ⟨s', hgs, hcompl, hgn⟩ :=
    executeStep_wait_getSteps tSched tUnblock d s nxt out patch steps hN hs
      hwait hms hnb
  have hif : (if tSched + d ≤ tUnblock then some tUnblock
      else some (tSched + d)) = some (tSched + d) := by
    rw [if_neg (by omega)]
  rw [hif] at hgn
  have hinelig : ∀ tm : Int, tm < tSched + d →
      eligible tm { nxt with
        scheduledFor := some (tSched + d),
        status := StepStatus.PENDING } = false := by
    intro tm htm
    simp [eligible, dateLe]
    omega
  refine ⟨s',
    { nxt with
        scheduledFor := some (tSched + d),
        status := StepStatus.PENDING },
    hgs, hgn, hcompl, rfl, rfl, by omega, hinelig, ?_⟩
  intro tm htm r st2 hacq
  cases hmc : minClaim tm (executeStep tSched tUnblock s
      (HandlerResult.ok out patch) steps) with
  | none =>
    rw [acquireNextStep_none hmc] at hacq
    simp at hacq
  | some mr =>
    rw [acquireNextStep_some hmc] at hacq
    have hr : r = { mr with status := StepStatus.RUNNING } :=
      (Option.some.inj (congrArg Prod.fst hacq)).symm
    rcases minClaim_mem hmc with ⟨hmrmem, hmrelig⟩
    intro hid
    have hNF : (stepIds (executeStep tSched tUnblock s
        (HandlerResult.ok out patch) steps)).Nodup := by
      rw [stepIds_executeStep]
      exact hN
    have hrid : r.id = mr.id := by rw [hr]
    have hgetmr : getStep nxt.id (executeStep tSched tUnblock s
        (HandlerResult.ok out patch) steps) = some mr := by
      have := mem_getStep hNF hmrmem
      rw [hrid] at hid
      rw [hid] at this
      exact this
    rw [hgn] at hgetmr
    have hmrval := Option.some.inj hgetmr
    rw [← hmrval] at hmrelig
    have := hinelig tm htm
    rw [this] at hmrelig
    cases hmrelig

/-- Witness for C2: schedule-write at 100, completion at 150, unblock at
200, delay 5000 on the demo wait store; the successor ends PENDING with
deadline 5100. -/
theorem claim_C2_wait_scheduling_witness :
    ∃ s' nxt',
      getStep 1 (executeStep 100 200
          (mkStepDoc 7 1 0 "WAIT: 5000" StepStatus.RUNNING "System")
          (HandlerResult.ok none []) demoWaitStore) = some s' ∧
      getStep 2 (executeStep 100 200
          (mkStepDoc 7 1 0 "WAIT: 5000" StepStatus.RUNNING "System")
          (HandlerResult.ok none []) demoWaitStore) = some nxt' ∧
      s'.status = StepStatus.COMPLETED ∧
      nxt'.status = StepStatus.PENDING ∧
      nxt'.scheduledFor = some (100 + 5000) ∧
      (100 : Int) + 5000 ≤ 150 + 5000 ∧
      (∀ tm : Int, tm < 100 + 5000 → eligible tm nxt' = false) ∧
      (∀ tm : Int, tm < 100 + 5000 → ∀ r st2,
        acquireNextStep tm (executeStep 100 200
            (mkStepDoc 7 1 0 "WAIT: 5000" StepStatus.RUNNING "System")
            (HandlerResult.ok none []) demoWaitStore)
          = (some r, st2) → r.id ≠ 2) :=
  claim_C2_wait_scheduling 100 150 200 5000 demoWaitStore
    (mkStepDoc 7 1 0 "WAIT: 5000" StepStatus.RUNNING "System")
    (mkStepDoc 7 2 0 "Book Hotel" StepStatus.BLOCKED "FinancialAgent")
    none [] (by decide) (by decide) (by decide) (by decide) (by decide)
    (by decide) (by decide) (by decide)

/-- Claim C10 counterexample: at the name WAIT: soon the computed delay
is NaN, but the successor is never assigned the NaN-based Invalid Date:
saving it fails the Mongoose date cast (and the toISOString call on the
same path would throw), the error lands in the catch block, and the step
IS rejected — executing it leaves the wait step FAILED and the successor
document unchanged, still BLOCKED with its previous scheduledFor.  This
refutes the claim that the invalid date is stored rather than the step
being rejected. -/
theorem claim_C10_counterexample :
    parseWaitMs "WAIT: soon" = none ∧
    (getStep 1 (executeStep 100 100
        (mkStepDoc 7 1 0 "WAIT: soon" StepStatus.RUNNING "System")
        (HandlerResult.ok none []) demoNanStore)).map StepDoc.status
      = some StepStatus.FAILED ∧
    getStep 2 (executeStep 100 100
        (mkStepDoc 7 1 0 "WAIT: soon" StepStatus.RUNNING "System")
        (HandlerResult.ok none []) demoNanStore)
      = some (mkStepDoc 7 2 0 "Book Hotel" StepStatus.BLOCKED
          "FinancialAgent") := by
  refine ⟨by decide, by decide, by decide⟩

/-- Claim C10 (amended): for a claimed wait step whose text between the
first and second colon does not begin with an optionally signed digit,
the computed delay is NaN (none), and the successor's new deadline is an
Invalid Date whose persistence fails (the Mongoose date cast at save;
equally the toISOString of the schedule log): the error reaches the
catch block, so the wait step is rejected — FAILED with the cast error
as its last log line — and the successor document is unchanged,
remaining BLOCKED with its previous scheduledFor. -/
theorem claim_C10_nan_wait (tS tU : Int) (steps : List StepDoc)
    (s nxt : StepDoc) (hr : HandlerResult) (seg : List Char)
    (hN : (stepIds steps).Nodup) (hs : s ∈ steps)
    (hwait : isWaitName s.name = true)
    (hseg : (splitCharList ':' s.name.toList).get? 1 = some seg)
    (hbad : beginsWithSignedDigit ((jsTrim seg).dropWhile Char.isWhitespace)
      = false)
    (hnb : findNextBlocked s.workflowId s.id steps = some nxt) :
    parseWaitMs s.name = none ∧
    (∃ s', getStep s.id (executeStep tS tU s hr steps) = some s' ∧
      s'.status = StepStatus.FAILED ∧
      s'.logs.getLast? = some ("Error: " ++ waitCastError)) ∧
    getStep nxt.id (executeStep tS tU s hr steps) = some nxt := by
  have hnone : parseWaitMs s.name = none := parseWaitMs_eq_none hseg hbad
  rcases findNextBlocked_mem hnb with ⟨hnmem, hncand⟩
  rcases nextBlockedCandidate_iff.mp hncand with ⟨hnwf, hnst, hnid⟩
  have hgs : getStep s.id steps = some s := mem_getStep hN hs
  have hgn : getStep nxt.id steps = some nxt := mem_getStep hN hnmem
  have hnb1 : findNextBlocked s.workflowId s.id
      (updateStep s.id (pushLog "Started execution") steps) = some nxt := by
    rw [findNextBlocked_updateStep_self s.workflowId s.id
      (pushLog "Started execution") (fun u => rfl) steps, hnb]
  have hwo : waitOutcome tS s steps = Except.error waitCastError := by
    unfold waitOutcome
    rw [if_pos hwait]
    unfold waitBranch
    rw [hnone, hnb1]
  have hF := executeStep_of_waitError tS tU s hr steps hwo
  refine ⟨hnone, ⟨pushLog ("Error: " ++ waitCastError)
      { pushLog "Started execution" s with status := StepStatus.FAILED },
    ?_, rfl, ?_⟩, ?_⟩
  · rw [hF,
      getStep_updateStep_self s.id
        (fun t => pushLog ("Error: " ++ waitCastError)
          { t with status := StepStatus.FAILED }) (fun u => rfl),
      getStep_updateStep_self s.id (pushLog "Started execution")
        (fun u => rfl),
      hgs]
    rfl
  · simp [pushLog]
  · rw [hF,
      getStep_updateStep_ne hnid
        (fun t => pushLog ("Error: " ++ waitCastError)
          { t with status := StepStatus.FAILED }) (fun u => rfl),
      getStep_updateStep_ne hnid (pushLog "Started execution")
        (fun u => rfl),
      hgn]

/-- Witness for C10: the demo NaN wait step executed with both clock
reads at 100; the wait step fails with the cast error logged and the
successor document is unchanged. -/
theorem claim_C10_nan_wait_witness :
    parseWaitMs "WAIT: soon" = none ∧
    (∃ s', getStep 1 (executeStep 100 100
        (mkStepDoc 7 1 0 "WAIT: soon" StepStatus.RUNNING "System")
        (HandlerResult.ok none []) demoNanStore) = some s' ∧
      s'.status = StepStatus.FAILED ∧
      s'.logs.getLast? = some ("Error: " ++ waitCastError)) ∧
    getStep 2 (executeStep 100 100
        (mkStepDoc 7 1 0 "WAIT: soon" StepStatus.RUNNING "System")
        (HandlerResult.ok none []) demoNanStore)
      = some (mkStepDoc 7 2 0 "Book Hotel" StepStatus.BLOCKED
          "FinancialAgent") :=
  claim_C10_nan_wait 100 100 demoNanStore
    (mkStepDoc 7 1 0 "WAIT: soon" StepStatus.RUNNING "System")
    (mkStepDoc 7 2 0 "Book Hotel" StepStatus.BLOCKED "FinancialAgent")
    (HandlerResult.ok none []) " soon".toList (by decide) (by decide)
    (by decide) (by decide) (by decide) (by decide)

/-- Claim C8: after step s of its workflow completes, the unblock block
selects the least-id BLOCKED step of the workflow — under the linear-run
hypothesis that every BLOCKED step of the workflow sits after s, this is
the next BLOCKED step after s in insertion order — resets its
scheduledFor to now only
when it is not in the future, sets it PENDING, and changes no other
document; when no BLOCKED candidate exists the store is unchanged. -/
theorem claim_C8_unblock_next (now : Int) (steps : List StepDoc)
    (s : StepDoc) (hN : (stepIds steps).Nodup)
    (hafter : ∀ u ∈ steps, u.workflowId = s.workflowId →
      u.status = StepStatus.BLOCKED → s.id < u.id) :
    ((∀ u ∈ steps, ¬(u.workflowId = s.workflowId ∧
        u.status = StepStatus.BLOCKED ∧ u.id ≠ s.id)) →
      unblockNext now s steps = steps) ∧
    (∀ nxt, findNextBlocked s.workflowId s.id steps = some nxt →
      nxt ∈ steps ∧ nxt.workflowId = s.workflowId ∧
      nxt.status = StepStatus.BLOCKED ∧ s.id < nxt.id ∧
      (∀ u ∈ steps, u.workflowId = s.workflowId →
        u.status = StepStatus.BLOCKED → nxt.id ≤ u.id) ∧
      getStep nxt.id (unblockNext now s steps)
        = some { nxt with
            scheduledFor := if dateLe nxt.scheduledFor now then some now
              else nxt.scheduledFor,
            status := StepStatus.PENDING } ∧
      (∀ u ∈ steps, u.id ≠ nxt.id → u ∈ unblockNext now s steps)) := by
  constructor
  · intro hno
    have hnone : findNextBlocked s.workflowId s.id steps = none := by
      apply findNextBlocked_eq_none.mpr
      intro u hu
      cases hc : nextBlockedCandidate s.workflowId s.id u
      · rfl
      · exact absurd (nextBlockedCandidate_iff.mp hc) (hno u hu)
    unfold unblockNext
    rw [hnone]
  · intro nxt hnb
    rcases findNextBlocked_mem hnb with ⟨hnmem, hncand⟩
    rcases nextBlockedCandidate_iff.mp hncand with ⟨hnwf, hnst, hnid⟩
    have hlt : s.id < nxt.id := hafter nxt hnmem hnwf hnst
    refine ⟨hnmem, hnwf, hnst, hlt, ?_, ?_, ?_⟩
    · intro u hu huwf hubl
      have hcand : nextBlockedCandidate s.workflowId s.id u = true := by
        apply nextBlockedCandidate_iff.mpr
        refine ⟨huwf, hubl, ?_⟩
        have := hafter u hu huwf hubl
        omega
      exact findNextBlocked_min hnb u hu hcand
    · have hub : unblockNext now s steps
          = updateStep nxt.id
              (fun u => { u with
                scheduledFor := if dateLe u.scheduledFor now then some now
                  else u.scheduledFor,
                status := StepStatus.PENDING }) steps := by
        unfold unblockNext
        rw [hnb]
      rw [hub, getStep_updateStep_self nxt.id
        (fun u => { u with
          scheduledFor := if dateLe u.scheduledFor now then some now
            else u.scheduledFor,
          status := StepStatus.PENDING }) (fun u => rfl),
        mem_getStep hN hnmem]
      rfl
    · intro u hu hne
      have hub : unblockNext now s steps
          = updateStep nxt.id
              (fun u => { u with
                scheduledFor := if dateLe u.scheduledFor now then some now
                  else u.scheduledFor,
                status := StepStatus.PENDING }) steps := by
        unfold unblockNext
        rw [hnb]
      rw [hub]
      have hmem := mem_updateStep_of_mem hu nxt.id
        (fun u => { u with
          scheduledFor := if dateLe u.scheduledFor now then some now
            else u.scheduledFor,
          status := StepStatus.PENDING })
      rw [if_neg hne] at hmem
      exact hmem

/-- Witness for C8 on the demo unblock store at instant 10: the due
successor is reset to now and set PENDING; the future-scheduled one keeps
its deadline when it is the candidate. -/
theorem claim_C8_unblock_next_witness :
    ((∀ u ∈ demoUnblockStore,
        ¬(u.workflowId
            = (mkStepDoc 7 1 0 "Find Flights" StepStatus.COMPLETED
              "LogisticsAgent").workflowId ∧
          u.status = StepStatus.BLOCKED ∧
          u.id ≠ (mkStepDoc 7 1 0 "Find Flights" StepStatus.COMPLETED
            "LogisticsAgent").id)) →
      unblockNext 10 (mkStepDoc 7 1 0 "Find Flights" StepStatus.COMPLETED
        "LogisticsAgent") demoUnblockStore = demoUnblockStore) ∧
    (∀ nxt, findNextBlocked 7 1 demoUnblockStore = some nxt →
      nxt ∈ demoUnblockStore ∧ nxt.workflowId = 7 ∧
      nxt.status = StepStatus.BLOCKED ∧ 1 < nxt.id ∧
      (∀ u ∈ demoUnblockStore, u.workflowId = 7 →
        u.status = StepStatus.BLOCKED → nxt.id ≤ u.id) ∧
      getStep nxt.id (unblockNext 10
          (mkStepDoc 7 1 0 "Find Flights" StepStatus.COMPLETED
            "LogisticsAgent") demoUnblockStore)
        = some { nxt with
            scheduledFor := if dateLe nxt.scheduledFor 10 then some 10
              else nxt.scheduledFor,
            status := StepStatus.PENDING } ∧
      (∀ u ∈ demoUnblockStore, u.id ≠ nxt.id →
        u ∈ unblockNext 10 (mkStepDoc 7 1 0 "Find Flights"
          StepStatus.COMPLETED "LogisticsAgent") demoUnblockStore)) :=
  claim_C8_unblock_next 10 demoUnblockStore
    (mkStepDoc 7 1 0 "Find Flights" StepStatus.COMPLETED "LogisticsAgent")
    (by decide) (by decide)

/-- Claim C6: across every engine operation, a COMPLETED or FAILED step
keeps its status (terminal states), and a step observed PENDING after an
operation was already PENDING, was BLOCKED (first entry via unblock), or
was RUNNING with the operation being startup recovery — so re-entry into
PENDING happens only from RUNNING via recovery, never during normal
execution. -/
theorem claim_C6_terminal_states (op : EngineOp) (steps : List StepDoc)
    (hN : (stepIds steps).Nodup) (sid : Nat) (t t' : StepDoc)
    (ht : getStep sid steps = some t)
    (ht' : getStep sid (applyOp op steps) = some t') :
    ((t.status = StepStatus.COMPLETED ∨ t.status = StepStatus.FAILED) →
      t'.status = t.status) ∧
    (t'.status = StepStatus.PENDING →
      t.status = StepStatus.PENDING ∨ t.status = StepStatus.BLOCKED ∨
        (t.status = StepStatus.RUNNING ∧ op = EngineOp.recover)) := by
  obtain ⟨hid, hwf, hcase⟩ := applyOp_status op steps hN ht ht'
  constructor
  · intro hterm
    rcases hcase with h | ⟨-, hrun, -⟩ | ⟨-, hpend, -⟩ |
      ⟨tS0, tU0, sid0, hr, sx, -, hg, hrunx, hc⟩
    · exact h
    · rcases hterm with h1 | h1 <;> rw [h1] at hrun <;> cases hrun
    · rcases hterm with h1 | h1 <;> rw [h1] at hpend <;> cases hpend
    · rcases hc with ⟨-, htrun, -⟩ | ⟨hbl, -, -⟩
      · rcases hterm with h1 | h1 <;> rw [h1] at htrun <;> cases htrun
      · rcases hterm with h1 | h1 <;> rw [h1] at hbl <;> cases hbl
  · intro hpend'
    rcases hcase with h | ⟨hop, hrun, -⟩ | ⟨-, -, hrun'⟩ |
      ⟨tS0, tU0, sid0, hr, sx, -, hg, hrunx, hc⟩
    · left
      rw [← h]
      exact hpend'
    · right
      right
      exact ⟨hrun, hop⟩
    · rw [hpend'] at hrun'
      cases hrun'
    · rcases hc with ⟨-, -, hterm⟩ | ⟨hbl, -, -⟩
      · rcases hterm with h1 | h1 <;> rw [hpend'] at h1 <;> cases h1
      · right
        left
        exact hbl

/-- Witness for C6: recovery applied to a store whose only step is
COMPLETED leaves that step COMPLETED. -/
theorem claim_C6_terminal_states_witness :
    (((mkStepDoc 7 1 0 "Send Final Itinerary" StepStatus.COMPLETED
        "Planner").status = StepStatus.COMPLETED ∨
      (mkStepDoc 7 1 0 "Send Final Itinerary" StepStatus.COMPLETED
        "Planner").status = StepStatus.FAILED) →
      (mkStepDoc 7 1 0 "Send Final Itinerary" StepStatus.COMPLETED
        "Planner").status
        = (mkStepDoc 7 1 0 "Send Final Itinerary" StepStatus.COMPLETED
          "Planner").status) ∧
    ((mkStepDoc 7 1 0 "Send Final Itinerary" StepStatus.COMPLETED
        "Planner").status = StepStatus.PENDING →
      (mkStepDoc 7 1 0 "Send Final Itinerary" StepStatus.COMPLETED
          "Planner").status = StepStatus.PENDING ∨
        (mkStepDoc 7 1 0 "Send Final Itinerary" StepStatus.COMPLETED
          "Planner").status = StepStatus.BLOCKED ∨
        ((mkStepDoc 7 1 0 "Send Final Itinerary" StepStatus.COMPLETED
          "Planner").status = StepStatus.RUNNING ∧
          EngineOp.recover = EngineOp.recover)) :=
  claim_C6_terminal_states EngineOp.recover demoTerminalStore (by decide) 1
    (mkStepDoc 7 1 0 "Send Final Itinerary" StepStatus.COMPLETED "Planner")
    (mkStepDoc 7 1 0 "Send Final Itinerary" StepStatus.COMPLETED "Planner")
    (by decide) (by decide)

/-! ## A stalled workflow stays frozen -/

theorem applyOp_frozen_of_stalled (wfId : Nat) (op : EngineOp)
    (steps : List StepDoc) (hN : (stepIds steps).Nodup)
    (hna : ∀ sid u, getStep sid steps = some u → u.workflowId = wfId →
      u.status ≠ StepStatus.PENDING ∧ u.status ≠ StepStatus.RUNNING) :
    ∀ sid u u', getStep sid steps = some u →
      getStep sid (applyOp op steps) = some u' → u.workflowId = wfId →
      u'.status = u.status ∧ u'.workflowId = wfId := by
  intro sid u u' ht ht' hwfu
  obtain ⟨hid, hwf, hcase⟩ := applyOp_status op steps hN ht ht'
  have hres : u'.status = u.status := by
    rcases hcase with h | ⟨-, hrun, -⟩ | ⟨-, hpend, -⟩ |
      ⟨tS0, tU0, sid0, hr, sx, -, hg, hrunx, hc⟩
    · exact h
    · exact absurd hrun ((hna sid u ht hwfu).2)
    · exact absurd hpend ((hna sid u ht hwfu).1)
    · rcases hc with ⟨-, htrun, -⟩ | ⟨-, -, hwfeq⟩
      · exact absurd htrun ((hna sid u ht hwfu).2)
      · have hsxwf : sx.workflowId = wfId := by
          rw [← hwfeq]
          exact hwfu
        exact absurd hrunx ((hna sid0 sx hg hsxwf).2)
  refine ⟨hres, ?_⟩
  rw [hwf]
  exact hwfu

theorem applyOps_frozen_of_stalled (wfId : Nat) (ops : List EngineOp)
    (steps : List StepDoc) (hN : (stepIds steps).Nodup)
    (hna : ∀ sid u, getStep sid steps = some u → u.workflowId = wfId →
      u.status ≠ StepStatus.PENDING ∧ u.status ≠ StepStatus.RUNNING) :
    ∀ sid u u', getStep sid steps = some u →
      getStep sid (applyOps ops steps) = some u' → u.workflowId = wfId →
      u'.status = u.status ∧ u'.workflowId = wfId := by
  induction ops generalizing steps with
  | nil =>
    intro sid u u' ht ht' hwfu
    replace ht' : getStep sid steps = some u' := ht'
    rw [ht] at ht'
    cases Option.some.inj ht'
    exact ⟨rfl, hwfu⟩
  | cons op ops ih =>
    intro sid u u' ht ht' hwfu
    have hN1 : (stepIds (applyOp op steps)).Nodup := by
      rw [stepIds_applyOp]
      exact hN
    have hu1ex : ∃ u1, getStep sid (applyOp op steps) = some u1 := by
      have hmemid : sid ∈ stepIds (applyOp op steps) := by
        rw [stepIds_applyOp]
        have huid : u.id = sid := getStep_id ht
        rw [← huid]
        exact List.mem_map_of_mem _ (getStep_mem ht)
      rcases List.mem_map.mp hmemid with ⟨u1, hu1mem, hu1id⟩
      refine ⟨u1, ?_⟩
      rw [← hu1id]
      exact mem_getStep hN1 hu1mem
    rcases hu1ex with ⟨u1, hu1⟩
    have hstage := applyOp_frozen_of_stalled wfId op steps hN hna sid u u1
      ht hu1 hwfu
    have hna1 : ∀ sid2 v, getStep sid2 (applyOp op steps) = some v →
        v.workflowId = wfId →
        v.status ≠ StepStatus.PENDING ∧ v.status ≠ StepStatus.RUNNING := by
      intro sid2 v hv hvwf
      have hmemid2 : sid2 ∈ stepIds steps := by
        rw [← stepIds_applyOp op steps]
        have hvid : v.id = sid2 := getStep_id hv
        rw [← hvid]
        exact List.mem_map_of_mem _ (getStep_mem hv)
      rcases List.mem_map.mp hmemid2 with ⟨v0, hv0mem, hv0id⟩
      have hv0get : getStep sid2 steps = some v0 := by
        rw [← hv0id]
        exact mem_getStep hN hv0mem
      obtain ⟨-, hvwf0, -⟩ := applyOp_status op steps hN hv0get hv
      have hv0wf : v0.workflowId = wfId := by
        rw [← hvwf0]
        exact hvwf
      rcases applyOp_frozen_of_stalled wfId op steps hN hna sid2 v0 v
        hv0get hv hv0wf with ⟨hst, -⟩
      rw [hst]
      exact hna sid2 v0 hv0get hv0wf
    replace ht' : getStep sid (applyOps ops (applyOp op steps)) = some u' := ht'
    rcases ih (applyOp op steps) hN1 hna1 sid u1 u' hu1 ht' hstage.2
      with ⟨hst2, hwf2⟩
    exact ⟨hst2.trans hstage.1, hwf2⟩

/-- Claim C7: when executing a claimed step s raises an error — the
handler error, or the wait branch's date-cast error — s transitions to
FAILED with the raised message as the last log line (Error: message),
the status of every other step is unchanged by that execution (no
unblock), and — with s the workflow's only PENDING-or-RUNNING step, as
in a linear run — the BLOCKED successor sk1 stays BLOCKED across every
further sequence of engine operations. -/
theorem claim_C7_handler_failure (tS tU : Int) (steps : List StepDoc)
    (s sk1 : StepDoc) (hr : HandlerResult) (emsg : String)
    (hN : (stepIds steps).Nodup)
    (hs : s ∈ steps) (hrun : s.status = StepStatus.RUNNING)
    (hsk1 : sk1 ∈ steps) (hbl : sk1.status = StepStatus.BLOCKED)
    (hwfk : sk1.workflowId = s.workflowId)
    (honly : ∀ u ∈ steps, u.workflowId = s.workflowId → u.id ≠ s.id →
      u.status ≠ StepStatus.PENDING ∧ u.status ≠ StepStatus.RUNNING)
    (herr : execError tS s hr steps = some emsg) :
    (∃ s', getStep s.id (executeStep tS tU s hr steps)
        = some s' ∧ s'.status = StepStatus.FAILED ∧
        s'.logs.getLast? = some ("Error: " ++ emsg)) ∧
    (∀ sid u u', sid ≠ s.id → getStep sid steps = some u →
      getStep sid (executeStep tS tU s hr steps) = some u' →
      u'.status = u.status) ∧
    (∀ ops : List EngineOp, ∀ u',
      getStep sk1.id (applyOps ops (executeStep tS tU s hr steps)) = some u' →
      u'.status = StepStatus.BLOCKED) := by
  have hgs : getStep s.id steps = some s := mem_getStep hN hs
  obtain ⟨B, hFB, hBpres, hBids⟩ :
      ∃ B, executeStep tS tU s hr steps
          = updateStep s.id (fun t =>
              pushLog ("Error: " ++ emsg) { t with status := StepStatus.FAILED })
              B ∧
        (∀ sid t, getStep sid steps = some t →
          ∃ t2, getStep sid B = some t2 ∧ t2.id = t.id ∧
            t2.status = t.status ∧ t2.workflowId = t.workflowId) ∧
        stepIds B = stepIds steps := by
    cases hwo : waitOutcome tS s steps with
    | error e =>
      have hee : emsg = e := by
        have h0 : execError tS s hr steps = some e := by
          unfold execError
          rw [hwo]
        rw [herr] at h0
        exact Option.some.inj h0
      subst hee
      refine ⟨updateStep s.id (pushLog "Started execution") steps,
        executeStep_of_waitError tS tU s hr steps hwo, ?_, ?_⟩
      · intro sid t ht
        exact getStep_updateStep_pres s.id (pushLog "Started execution")
          (fun u => rfl) (fun u => rfl) (fun u => rfl) ht
      · rw [stepIds_updateStep]
        exact fun u => rfl
    | ok steps2 =>
      cases hr with
      | ok output patch =>
        exfalso
        have h0 : execError tS s (HandlerResult.ok output patch) steps
            = none := by
          unfold execError
          rw [hwo]
        rw [herr] at h0
        cases h0
      | error msg =>
        have hme : emsg = msg := by
          have h0 : execError tS s (HandlerResult.error msg) steps
              = some msg := by
            unfold execError
            rw [hwo]
          rw [herr] at h0
          exact Option.some.inj h0
        subst hme
        refine ⟨steps2, executeStep_of_ok_error tS tU s emsg steps hwo, ?_,
          stepIds_waitOutcome hwo⟩
        intro sid t ht
        exact getStep_waitOutcome_pres hwo ht
  obtain ⟨t2, ht2, h2id, h2st, h2wf⟩ := hBpres s.id s hgs
  have hfail : getStep s.id (executeStep tS tU s hr steps)
      = some (pushLog ("Error: " ++ emsg)
          { t2 with status := StepStatus.FAILED }) := by
    rw [hFB, getStep_updateStep_self s.id
      (fun t => pushLog ("Error: " ++ emsg) { t with status := StepStatus.FAILED })
      (fun u => rfl), ht2]
    rfl
  have hothers : ∀ sid u u', sid ≠ s.id → getStep sid steps = some u →
      getStep sid (executeStep tS tU s hr steps) = some u' →
      u'.status = u.status ∧ u'.workflowId = u.workflowId := by
    intro sid u u' hne hu hu'
    obtain ⟨v2, hv2, hv2id, hv2st, hv2wf⟩ := hBpres sid u hu
    rw [hFB, getStep_updateStep_ne hne
      (fun t => pushLog ("Error: " ++ emsg) { t with status := StepStatus.FAILED })
      (fun u => rfl), hv2] at hu'
    cases Option.some.inj hu'
    exact ⟨hv2st, hv2wf⟩
  refine ⟨⟨pushLog ("Error: " ++ emsg) { t2 with status := StepStatus.FAILED },
      hfail, rfl, ?_⟩,
    fun sid u u' hne hu hu' => (hothers sid u u' hne hu hu').1, ?_⟩
  · simp [pushLog]
  · intro ops u' hu'
    have hNF : (stepIds (executeStep tS tU s hr steps)).Nodup := by
      rw [stepIds_executeStep]
      exact hN
    have hskne : sk1.id ≠ s.id := by
      intro hEq
      have := uniqById hN hsk1 hs hEq
      rw [this, hrun] at hbl
      cases hbl
    have hgk : getStep sk1.id steps = some sk1 := mem_getStep hN hsk1
    obtain ⟨k2, hk2, hk2id, hk2st, hk2wf⟩ := hBpres sk1.id sk1 hgk
    have hgkF : getStep sk1.id (executeStep tS tU s hr steps) = some k2 := by
      rw [hFB, getStep_updateStep_ne hskne
        (fun t => pushLog ("Error: " ++ emsg) { t with status := StepStatus.FAILED })
        (fun u => rfl)]
      exact hk2
    have hna : ∀ sid v, getStep sid (executeStep tS tU s hr steps) = some v →
        v.workflowId = s.workflowId →
        v.status ≠ StepStatus.PENDING ∧ v.status ≠ StepStatus.RUNNING := by
      intro sid v hv hvwf
      by_cases hsid : sid = s.id
      · rw [hsid, hfail] at hv
        cases Option.some.inj hv
        constructor
        · intro hcontra
          cases hcontra
        · intro hcontra
          cases hcontra
      · have hmemid : sid ∈ stepIds steps := by
          rw [← stepIds_executeStep tS tU s hr steps]
          have hvid : v.id = sid := getStep_id hv
          rw [← hvid]
          exact List.mem_map_of_mem _ (getStep_mem hv)
        rcases List.mem_map.mp hmemid with ⟨v0, hv0mem, hv0id⟩
        have hv0get : getStep sid steps = some v0 := by
          rw [← hv0id]
          exact mem_getStep hN hv0mem
        rcases hothers sid v0 v hsid hv0get hv with ⟨hst, hwfp⟩
        rw [hst]
        apply honly v0 hv0mem
        · rw [← hwfp]
          exact hvwf
        · have hv0idv : v0.id = sid := getStep_id hv0get
          rw [hv0idv]
          exact hsid
    have := applyOps_frozen_of_stalled s.workflowId ops
      (executeStep tS tU s hr steps) hNF hna
      sk1.id k2 u' hgkF hu' (by rw [hk2wf]; exact hwfk)
    rcases this with ⟨hst2, -⟩
    rw [hst2, hk2st]
    exact hbl

/-- Witness for C7: the demo failing step executed with both clock reads
at 100 and handler error boom; its successor stays BLOCKED under any
later operations. -/
theorem claim_C7_handler_failure_witness :
    (∃ s', getStep 1 (executeStep 100 100
        (mkStepDoc 7 1 0 "Find Flights" StepStatus.RUNNING "LogisticsAgent")
        (HandlerResult.error "boom") demoFailStore) = some s' ∧
      s'.status = StepStatus.FAILED ∧
      s'.logs.getLast? = some ("Error: " ++ "boom")) ∧
    (∀ sid u u', sid ≠ 1 → getStep sid demoFailStore = some u →
      getStep sid (executeStep 100 100
          (mkStepDoc 7 1 0 "Find Flights" StepStatus.RUNNING "LogisticsAgent")
          (HandlerResult.error "boom") demoFailStore) = some u' →
      u'.status = u.status) ∧
    (∀ ops : List EngineOp, ∀ u',
      getStep 2 (applyOps ops (executeStep 100 100
          (mkStepDoc 7 1 0 "Find Flights" StepStatus.RUNNING "LogisticsAgent")
          (HandlerResult.error "boom") demoFailStore)) = some u' →
      u'.status = StepStatus.BLOCKED) :=
  claim_C7_handler_failure 100 100 demoFailStore
    (mkStepDoc 7 1 0 "Find Flights" StepStatus.RUNNING "LogisticsAgent")
    (mkStepDoc 7 2 0 "Book Hotel" StepStatus.BLOCKED "FinancialAgent")
    (HandlerResult.error "boom") "boom" (by decide) (by decide) (by decide)
    (by decide) (by decide) (by decide) (by decide) (by decide)

end EventHorizon
